import Mathlib

/-!
# A shallow embedding of `vector.h`

`vector.h` implements a growable array as a family of statement-expression
macros over a struct of three pointers `base`, `head` and `end`.

Modelling decisions, all taken from the source:

* The block `base` points to is a list of slots; `base = none` is `NULL`.
  `head` is kept as the element offset `head - base`.  `end` is assigned in
  two places only (`vector_resize`: `b + s` for a block of `s` slots, and
  `vector_clear`: `NULL` together with `base`), so `end - base` is always the
  slot count of the block and is not stored separately.
* `realloc` is an oracle argument of every operation that can call it (each
  of them calls it at most once): `none` is a `NULL` return that leaves the
  old block intact, `some fill` is a success whose fresh slots hold the
  indeterminate values `fill k`.
* A dereference outside the block (or through `NULL`) is undefined behaviour;
  operations that dereference return `Option`, with `none` for undefined
  behaviour.  Pointer arithmetic itself is plain offset arithmetic.
* `int` and `ptrdiff_t` values are mathematical integers (sizes are assumed to
  fit in an `int`); `VECTOR_RESIZE_FACTOR` is the exact rational `70/100`, so
  the `double` product in `vector_newsize__` is computed without rounding.
* Every result records the sizes requested from `realloc`, in call order.
-/

namespace VectorH

variable {α : Type}

/-- The struct `vector(type)`: the block behind `base` (or `NULL`) and the
offset of `head` in it. -/
structure vector (α : Type) where
  base : Option (List α)
  head : Nat
  deriving DecidableEq

/-- What one macro call leaves behind: the value of the statement expression,
the vector afterwards, and the element counts passed to `realloc`. -/
structure Res (α ρ : Type) where
  ret : ρ
  v : vector α
  reallocs : List Nat
  deriving DecidableEq

/-- The macro `VECTOR_EMPTY_INITIALIZER`, that is `{NULL, NULL, NULL}`. -/
def VECTOR_EMPTY_INITIALIZER : vector α := ⟨none, 0⟩

/-- The macro `VECTOR_RESIZE_FACTOR`, default `0.70`, as an exact rational. -/
def VECTOR_RESIZE_FACTOR : ℚ := 70 / 100

/-- The macro `vector_capacity(v)`: `end - base`. -/
def vector_capacity (v : vector α) : Nat := (v.base.getD []).length

/-- The macro `vector_size(v)`: `head - base`. -/
def vector_size (v : vector α) : Nat := v.head

/-- The macro `vector_newsize__(oldsize)`:
`((size_t) ((VECTOR_RESIZE_FACTOR + 1) * (oldsize)) + 1)`; the cast of a
non-negative value to `size_t` truncates, which is the floor. -/
def vector_newsize__ (oldsize : Nat) : Nat :=
  Int.toNat ⌊(VECTOR_RESIZE_FACTOR + 1) * (oldsize : ℚ)⌋ + 1

/-- The read `v->base[k]`. -/
def load (v : vector α) (k : Nat) : Option α :=
  match v.base with
  | some m => m[k]?
  | none => none

/-- The write `v->base[k] = x`. -/
def store (v : vector α) (k : Nat) (x : α) : Option (vector α) :=
  match v.base with
  | some m => if k < m.length then some ⟨some (m.set k x), v.head⟩ else none
  | none => none

/-- The call `realloc(base, s * sizeof(*base))`: on success the new block has
`s` slots, the first `min s old` of them copied from the old block. -/
def realloc (r : Option (Nat → α)) (old : Option (List α)) (s : Nat) :
    Option (List α) :=
  match r with
  | some fill =>
    let m := old.getD []
    some (m.take s ++ (List.range' m.length (s - m.length)).map fill)
  | none => none

/-- The macro `vector_resize(v, s)`; the value is `true` for `v__` and `false` for
`NULL`. -/
def vector_resize (r : Option (Nat → α)) (v : vector α) (s : Nat) : Res α Bool :=
  if s ≠ vector_capacity v then
    let o := v.head
    match realloc r v.base s with
    | some b => ⟨true, ⟨some b, o⟩, [s]⟩
    | none => ⟨false, v, [s]⟩
  else
    ⟨v.base.isSome, v, []⟩

/-- The macro `vector_append(v, e)`, with `err` for `VECTOR_ERROR` cast to the element
type. -/
def vector_append (err : α) (r : Option (Nat → α)) (v : vector α) (e : α) :
    Option (Res α α) :=
  let b : Res α Bool :=
    if v.head = vector_capacity v then
      vector_resize r v (vector_newsize__ (vector_capacity v))
    else ⟨true, v, []⟩
  if b.ret = false then
    some ⟨err, b.v, b.reallocs⟩
  else
    (store b.v b.v.head e).map fun w => ⟨e, ⟨w.base, w.head + 1⟩, b.reallocs⟩

/-- The live elements: the slots `[0, head)` of the block. -/
def live (v : vector α) : List α := (v.base.getD []).take v.head

/-- The block a successful growth of the full block `m` leaves: the old slots
followed by the fresh ones. -/
def grown (fill : Nat → α) (m : List α) : List α :=
  m ++ (List.range' m.length (vector_newsize__ m.length - m.length)).map fill

/-- The macro `vector_clear(v)`: frees the block and sets the three pointers to `NULL`;
the value is the vector. -/
def vector_clear (_v : vector α) : Res α Bool :=
  ⟨true, ⟨none, 0⟩, []⟩

/-- The macro `vector_pop(v)`: `head == base ? VECTOR_ERROR : *--head`. -/
def vector_pop (err : α) (v : vector α) : Option (Res α α) :=
  if v.head = 0 then
    some ⟨err, v, []⟩
  else
    (load v (v.head - 1)).map fun x => ⟨x, ⟨v.base, v.head - 1⟩, []⟩

/-- The loop `for (j = j0; j > i; j--) base[j] = base[j-1];` of
`vector_insert` and `vector_prepend`, started at `j0`. -/
def shift_up (i : Nat) : Nat → vector α → Option (vector α)
  | 0, v => some v
  | j + 1, v =>
    if i < j + 1 then
      (load v j).bind fun x => (store v (j + 1) x).bind (shift_up i j)
    else some v

/-- The loop `for (j = j0; j < size-1; j++) base[j] = base[j+1];` of
`vector_remove` and `vector_pop_first`; the first argument is the number of
iterations still to run, `size-1 - j0` at the start. -/
def shift_down : Nat → Nat → vector α → Option (vector α)
  | 0, _, v => some v
  | n + 1, j, v =>
    (load v (j + 1)).bind fun x => (store v j x).bind (shift_down n (j + 1))

/-- The macro `vector_insert(v, i, e)`. -/
def vector_insert [DecidableEq α] (err : α) (r : Option (Nat → α)) (v : vector α)
    (i : Int) (e : α) : Option (Res α α) :=
  let size : Int := vector_size v
  let l := err
  if i < 0 then
    some ⟨l, v, []⟩
  else if i = size then
    vector_append err r v e
  else if i < size then
    (load v (size - 1).toNat).bind fun p =>
    (shift_up i.toNat (size - 1).toNat v).bind fun v1 =>
    (store v1 i.toNat e).bind fun v2 =>
    (vector_append err r v2 p).map fun a =>
      ⟨if a.ret = err then l else e, a.v, a.reallocs⟩
  else
    some ⟨l, v, []⟩

/-- The macro `vector_pop_first(v)`. -/
def vector_pop_first (err : α) (v : vector α) : Option (Res α α) :=
  let size : Int := vector_size v
  if size > 1 then
    (load v 0).bind fun l =>
    (shift_down (size - 1).toNat 0 v).map fun v1 =>
      ⟨l, ⟨v1.base, v1.head - 1⟩, []⟩
  else
    vector_pop err v

/-- The macro `vector_prepend(v, e)`. -/
def vector_prepend [DecidableEq α] (err : α) (r : Option (Nat → α)) (v : vector α)
    (e : α) : Option (Res α α) :=
  let size : Int := vector_size v
  let shifted : Option (α × vector α) :=
    if size > 0 then
      (load v (size - 1).toNat).bind fun l =>
      (shift_up 0 (size - 1).toNat v).bind fun v1 =>
      (store v1 0 e).map fun v2 => (l, v2)
    else
      some (e, v)
  shifted.bind fun lv =>
    (vector_append err r lv.2 lv.1).map fun a =>
      ⟨if a.ret = err then err else e, a.v, a.reallocs⟩

/-- The macro `vector_remove(v, i)`. -/
def vector_remove (err : α) (v : vector α) (i : Int) : Option (Res α α) :=
  let size : Int := vector_size v
  let l := err
  if i < 0 then
    some ⟨l, v, []⟩
  else if i = size - 1 then
    vector_pop err v
  else if i < size then
    (load v i.toNat).bind fun x =>
    (shift_down (size - 1 - i).toNat i.toNat v).map fun v1 =>
      ⟨x, ⟨v1.base, v1.head - 1⟩, []⟩
  else
    some ⟨l, v, []⟩

/-- The macro `vector_set(v, i, e)`. -/
def vector_set (err : α) (r : Option (Nat → α)) (v : vector α) (i : Int) (e : α) :
    Option (Res α α) :=
  let size : Int := vector_size v
  let l := err
  if i < 0 then
    some ⟨l, v, []⟩
  else if i < size then
    (store v i.toNat e).map fun w => ⟨e, w, []⟩
  else if i = size then
    vector_append err r v e
  else
    some ⟨l, v, []⟩

/-- The macro `vector_trim(v)`: `vector_resize(v, vector_size(v))`. -/
def vector_trim (r : Option (Nat → α)) (v : vector α) : Res α Bool :=
  let b := vector_resize r v (vector_size v)
  ⟨b.ret, b.v, b.reallocs⟩

/-- One call of the interface, with the outcome of the `realloc` it may
make. -/
inductive Op (α : Type) where
  | append (r : Option (Nat → α)) (e : α)
  | set (r : Option (Nat → α)) (i : Int) (e : α)
  | pop
  | pop_first
  | insert (r : Option (Nat → α)) (i : Int) (e : α)
  | remove (i : Int)
  | prepend (r : Option (Nat → α)) (e : α)
  | resize (r : Option (Nat → α)) (s : Nat)
  | trim (r : Option (Nat → α))
  | clear

/-- The vector after one call; `none` when the call has undefined
behaviour. -/
def step [DecidableEq α] (err : α) (v : vector α) : Op α → Option (vector α)
  | .append r e => (vector_append err r v e).map (·.v)
  | .set r i e => (vector_set err r v i e).map (·.v)
  | .pop => (vector_pop err v).map (·.v)
  | .pop_first => (vector_pop_first err v).map (·.v)
  | .insert r i e => (vector_insert err r v i e).map (·.v)
  | .remove i => (vector_remove err v i).map (·.v)
  | .prepend r e => (vector_prepend err r v e).map (·.v)
  | .resize r s => some (vector_resize r v s).v
  | .trim r => some (vector_trim r v).v
  | .clear => some (vector_clear v).v

/-- The vector after a sequence of calls, first call first. -/
def run [DecidableEq α] (err : α) (v : vector α) : List (Op α) → Option (vector α)
  | [] => some v
  | op :: ops => (step err v op).bind fun w => run err w ops

/-- The loop `for (i = i0; i < s; i++) if (eq(e, base[i]) == 0) break;` of
`vector_index_of`; the first numeric argument is the number of iterations
still to run, `s - i0` at the start, and the value is `i` at the exit. -/
def index_loop (eq : α → α → Int) (e : α) (v : vector α) : Nat → Nat → Option Nat
  | 0, i => some i
  | n + 1, i =>
    (load v i).bind fun x =>
      if eq e x = 0 then some i else index_loop eq e v n (i + 1)

/-- The macro `vector_index_of(v, e, eq)`: `i == s ? -1 : i` after the loop. -/
def vector_index_of (v : vector α) (e : α) (eq : α → α → Int) : Option Int :=
  let s := vector_size v
  (index_loop eq e v s 0).map fun i => if i = s then -1 else (i : Int)

/-- The macro `vector_contains(v, e, eq)`: `vector_index_of(v, e, eq) != -1`. -/
def vector_contains (v : vector α) (e : α) (eq : α → α → Int) : Option Bool :=
  (vector_index_of v e eq).map fun i => i != -1

/-- A comparator in the style the macros expect: zero on a match. -/
def int_cmp (a b : Int) : Int := a - b

/-- The capacity of `w` is that of `v`, or `vector_newsize__` of it and then
strictly larger. -/
def capacity_kept_or_grown (v w : vector α) : Prop :=
  vector_capacity w = vector_capacity v ∨
    (vector_capacity w = vector_newsize__ (vector_capacity v) ∧
      vector_capacity v < vector_capacity w)

/-! ## Arithmetic of the growth policy -/

theorem vector_newsize_eq (c : Nat) : vector_newsize__ c = 17 * c / 10 + 1 := by
  unfold vector_newsize__ VECTOR_RESIZE_FACTOR
  have h : ((70 / 100 : ℚ) + 1) * (c : ℚ) = (((17 * c : ℕ) : ℤ) : ℚ) / ((10 : ℕ) : ℚ) := by
    push_cast; ring
  rw [h, Rat.floor_intCast_div_natCast]
  omega

theorem vector_newsize_gt (c : Nat) : c < vector_newsize__ c := by
  rw [vector_newsize_eq]; omega

/-! ## Memory accesses -/

theorem load_some (m : List α) (h k : Nat) : load ⟨some m, h⟩ k = m[k]? := rfl

theorem store_some (m : List α) (h k : Nat) (x : α) (hk : k < m.length) :
    store ⟨some m, h⟩ k x = some ⟨some (m.set k x), h⟩ := by
  simp [store, hk]

theorem capacity_some (m : List α) (h : Nat) : vector_capacity ⟨some m, h⟩ = m.length := rfl

theorem live_some (m : List α) (h : Nat) : live ⟨some m, h⟩ = m.take h := rfl

/-- A successful append with spare room writes the slot at `head`. -/
theorem append_spare (err : α) (r : Option (Nat → α)) (m : List α) (h : Nat) (e : α)
    (hlt : h < m.length) :
    vector_append err r ⟨some m, h⟩ e = some ⟨e, ⟨some (m.set h e), h + 1⟩, []⟩ := by
  have hne : h ≠ m.length := by omega
  simp [vector_append, capacity_some, hne, store, hlt]

theorem grown_length (fill : Nat → α) (m : List α) :
    (grown fill m).length = vector_newsize__ m.length := by
  have := vector_newsize_gt m.length
  simp [grown]; omega

theorem append_grow (err : α) (fill : Nat → α) (b : Option (List α)) (e : α) :
    vector_append err (some fill) ⟨b, (b.getD []).length⟩ e =
      some ⟨e, ⟨some ((grown fill (b.getD [])).set (b.getD []).length e),
        (b.getD []).length + 1⟩, [vector_newsize__ (b.getD []).length]⟩ := by
  have hgt := vector_newsize_gt (b.getD []).length
  have hne : vector_newsize__ (b.getD []).length ≠ (b.getD []).length := by omega
  have hlen := grown_length fill (b.getD [])
  simp [vector_append, vector_capacity, vector_resize, realloc, hne, store, List.take_of_length_le (Nat.le_of_lt hgt)]
  simp [grown] at hlen ⊢
  omega

/-! ## The two shifting loops -/

theorem shift_up_spec (i h : Nat) : ∀ (j : Nat) (m : List α), j < m.length →
    ∃ m', shift_up i j ⟨some m, h⟩ = some ⟨some m', h⟩ ∧ m'.length = m.length ∧
      ∀ k, m'[k]? = if i < k ∧ k ≤ j then m[k - 1]? else m[k]? := by
  intro j
  induction j with
  | zero =>
    intro m _
    refine ⟨m, rfl, rfl, fun k => ?_⟩
    have : ¬ (i < k ∧ k ≤ 0) := by omega
    rw [if_neg this]
  | succ j ih =>
    intro m hj
    by_cases hi : i < j + 1
    · have hj' : j < m.length := by omega
      obtain ⟨m', hrun, hlen, hget⟩ := ih (m.set (j + 1) m[j]) (by simpa using hj')
      refine ⟨m', ?_, by simpa using hlen, fun k => ?_⟩
      · simp [shift_up, hi, load, store, hj, hj', hrun]
      · rw [hget k]
        simp only [List.getElem?_set]
        by_cases h1 : i < k ∧ k ≤ j
        · have h2 : i < k ∧ k ≤ j + 1 := by omega
          have h3 : ¬ (j + 1 = k - 1) := by omega
          simp [h1, h2, h3]
        · by_cases h4 : k = j + 1
          · subst h4
            have h5 : i < j + 1 ∧ j + 1 ≤ j + 1 := by omega
            simp [h5, hj, hj']
          · have h6 : ¬ (i < k ∧ k ≤ j + 1) := by omega
            have h7 : ¬ (j + 1 = k) := by omega
            simp [h1, h6, h7]
    · refine ⟨m, ?_, rfl, fun k => ?_⟩
      · simp [shift_up, hi]
      · have : ¬ (i < k ∧ k ≤ j + 1) := by omega
        simp [this]

theorem shift_down_spec (h : Nat) : ∀ (n j : Nat) (m : List α), j + n < m.length →
    ∃ m', shift_down n j ⟨some m, h⟩ = some ⟨some m', h⟩ ∧ m'.length = m.length ∧
      ∀ k, m'[k]? = if j ≤ k ∧ k < j + n then m[k + 1]? else m[k]? := by
  intro n
  induction n with
  | zero =>
    intro j m _
    refine ⟨m, rfl, rfl, fun k => ?_⟩
    have : ¬ (j ≤ k ∧ k < j + 0) := by omega
    rw [if_neg this]
  | succ n ih =>
    intro j m hj
    have hj1 : j + 1 < m.length := by omega
    have hj0 : j < m.length := by omega
    obtain ⟨m', hrun, hlen, hget⟩ := ih (j + 1) (m.set j m[j + 1]) (by simp; omega)
    refine ⟨m', ?_, by simpa using hlen, fun k => ?_⟩
    · simp [shift_down, load, store, hj0, hj1, hrun]
    · rw [hget k]
      simp only [List.getElem?_set]
      by_cases h1 : j + 1 ≤ k ∧ k < j + 1 + n
      · have h2 : j ≤ k ∧ k < j + (n + 1) := by omega
        have h3 : ¬ (j = k + 1) := by omega
        simp [h1, h2, h3]
      · by_cases h4 : k = j
        · subst h4
          have h5 : k ≤ k ∧ k < k + (n + 1) := by omega
          simp [h5, hj0, hj1]
        · have h6 : ¬ (j ≤ k ∧ k < j + (n + 1)) := by omega
          have h7 : ¬ (j = k) := by omega
          simp [h1, h6, h7]

/-! ## Appending -/

theorem take_set_of_le (B : List α) (n m : Nat) (a : α) (hle : m ≤ n) :
    (B.set n a).take m = B.take m := by
  apply List.ext_getElem?
  intro k
  rw [List.getElem?_take, List.getElem?_take]
  by_cases hk : k < m
  · have : ¬ (n = k) := by omega
    simp [hk, List.getElem?_set, this]
  · simp [hk]

theorem take_succ_set (B : List α) (h : Nat) (e : α) (hlt : h < B.length) :
    (B.set h e).take (h + 1) = B.take h ++ [e] := by
  rw [List.take_succ, take_set_of_le _ _ _ _ (Nat.le_refl h)]
  simp [List.getElem?_set, hlt]

theorem grown_take (fill : Nat → α) (m : List α) : (grown fill m).take m.length = m := by
  simp [grown]

theorem grown_getElem (fill : Nat → α) (m : List α) (k : Nat) (hk : k < m.length) :
    (grown fill m)[k]? = m[k]? := by
  simp [grown, List.getElem?_append_left hk]

theorem append_ok (err : α) (r : Option (Nat → α)) (v : vector α) (e : α)
    (hinv : vector_size v ≤ vector_capacity v)
    (hr : vector_size v = vector_capacity v → r ≠ none) :
    ∃ w, vector_append err r v e = some w ∧ w.ret = e ∧
      live w.v = live v ++ [e] ∧
      (∀ k, k < vector_size v → load w.v k = load v k) ∧
      vector_size w.v = vector_size v + 1 ∧
      (vector_size v < vector_capacity v → vector_capacity w.v = vector_capacity v) ∧
      vector_size w.v ≤ vector_capacity w.v := by
  obtain ⟨b, h⟩ := v
  rcases Nat.lt_or_ge h (b.getD []).length with hlt | hge
  · cases b with
    | none => simp at hlt
    | some m =>
      simp only [Option.getD_some] at hlt
      refine ⟨_, append_spare err r m h e hlt, rfl, ?_, ?_, rfl, ?_, ?_⟩
      · simp [live, take_succ_set _ _ _ hlt]
      · intro k hk
        have : ¬ (h = k) := by simp [vector_size] at hk; omega
        simp [load, List.getElem?_set, this]
      · intro _; simp [vector_capacity]
      · simp [vector_size, vector_capacity]; omega
  · have heq : h = (b.getD []).length := by
      simp only [vector_size, vector_capacity] at hinv; omega
    subst heq
    obtain ⟨fill, rfl⟩ := Option.ne_none_iff_exists'.mp (hr rfl)
    have hlen := grown_length fill (b.getD [])
    have hgt := vector_newsize_gt (b.getD []).length
    refine ⟨_, append_grow err fill b e, rfl, ?_, ?_, rfl, ?_, ?_⟩
    · rw [live_some, take_succ_set _ _ _ (by omega), grown_take]
      simp [live]
    · intro k hk
      simp only [vector_size] at hk
      have : ¬ ((b.getD []).length = k) := by omega
      rw [load_some, List.getElem?_set, if_neg this, grown_getElem _ _ _ hk]
      cases b with
      | none => simp at hk
      | some m => rfl
    · intro hlt
      simp [vector_size, vector_capacity] at hlt
    · simp [vector_size, vector_capacity, hlen]; omega


/-! ## Popping and removing -/

theorem pop_ok (err : α) (m : List α) (h : Nat) (hpos : 0 < h) (hle : h ≤ m.length) :
    ∃ x, m[h - 1]? = some x ∧
      vector_pop err ⟨some m, h⟩ = some ⟨x, ⟨some m, h - 1⟩, []⟩ := by
  have hlt : h - 1 < m.length := by omega
  refine ⟨m[h - 1], by simp [hlt], ?_⟩
  have hne : h ≠ 0 := by omega
  simp [vector_pop, hne, load, hlt]

/-- The live sequence once the slots from `n` on have moved down by one. -/
theorem live_shift_down (m m' : List α) (n h : Nat) (hn : n < h) (hh : h ≤ m.length)
    (hget : ∀ k, m'[k]? = if n ≤ k ∧ k < h - 1 then m[k + 1]? else m[k]?) :
    m'.take (h - 1) = (m.take h).take n ++ (m.take h).drop (n + 1) := by
  apply List.ext_getElem?
  intro k
  rw [List.getElem?_take, hget k, List.getElem?_append, List.getElem?_take, List.getElem?_drop,
    List.getElem?_take, List.getElem?_take, List.length_take, List.length_take]
  by_cases h1 : k < h - 1
  · by_cases h2 : k < n
    · have h3 : ¬ (n ≤ k ∧ k < h - 1) := by omega
      have h4 : k < min n (min h m.length) := by omega
      have h5 : k < h := by omega
      simp [h1, h2, h3, h4, h5]
    · have h3 : n ≤ k ∧ k < h - 1 := by omega
      have h4 : ¬ (k < min n (min h m.length)) := by omega
      have h5 : n + 1 + (k - min n (min h m.length)) = k + 1 := by omega
      have h6 : k + 1 < h := by omega
      simp [h1, h3, h4, h5, h6]
  · have h4 : ¬ (k < min n (min h m.length)) := by omega
    have h5 : ¬ (n + 1 + (k - min n (min h m.length)) < h) := by omega
    simp [h1, h4, h5]

theorem remove_ok (err : α) (v : vector α) (i : Int)
    (hinv : vector_size v ≤ vector_capacity v) (h0 : 0 ≤ i) (hi : i < vector_size v) :
    ∃ w, vector_remove err v i = some w ∧
      (live v)[i.toNat]? = some w.ret ∧
      live w.v = (live v).take i.toNat ++ (live v).drop (i.toNat + 1) ∧
      vector_size w.v + 1 = vector_size v ∧
      vector_capacity w.v = vector_capacity v ∧
      w.reallocs = [] := by
  obtain ⟨b, h⟩ := v
  obtain ⟨n, rfl⟩ := Int.eq_ofNat_of_zero_le h0
  replace hi : n < h := by simpa [vector_size] using hi
  have hneg : ¬ ((n : Int) < 0) := by omega
  cases b with
  | none => simp [vector_size, vector_capacity] at hinv; omega
  | some m =>
    simp only [vector_size, capacity_some] at hinv
    have hnm : n < m.length := by omega
    by_cases hlast : (n : Int) = (h : Int) - 1
    · obtain ⟨x, hx, hpop⟩ := pop_ok err m h (by omega) hinv
      have hn : n = h - 1 := by omega
      refine ⟨⟨x, ⟨some m, h - 1⟩, []⟩, ?_, ?_, ?_, ?_, rfl, rfl⟩
      · unfold vector_remove
        simp only [vector_size]
        rw [if_neg hneg, if_pos hlast]
        exact hpop
      · simp [live, List.getElem?_take, hi, hn ▸ hx]
      · have hd : (m.take h).drop (h - 1 + 1) = [] := by
          simp; omega
        simp only [Int.toNat_ofNat, live_some, hn, hd, List.append_nil, List.take_take]
        congr 1
        omega
      · simp [vector_size]; omega
    · obtain ⟨m', hrun, hlen, hget⟩ := shift_down_spec h (h - 1 - n) n m (by omega)
      refine ⟨⟨m[n], ⟨some m', h - 1⟩, []⟩, ?_, ?_, ?_, ?_, ?_, rfl⟩
      · have e1 : ((h : Int) - 1 - (n : Int)).toNat = h - 1 - n := by omega
        have e3 : (n : Int) < (h : Int) := by omega
        simp [vector_remove, vector_size, hlast, e1, hneg, e3, load, hnm, hrun]
      · simp [live, List.getElem?_take, hi, hnm]
      · simp only [Int.toNat_ofNat, live_some]
        apply live_shift_down m m' n h hi hinv
        intro k
        rw [hget k]
        have : (n ≤ k ∧ k < n + (h - 1 - n)) ↔ (n ≤ k ∧ k < h - 1) := by omega
        simp only [this]
      · simp [vector_size]; omega
      · simp [vector_capacity, hlen]

/-! ## Inserting -/

/-- The live sequence once the slots from `n` on have moved up by one, `e` has
been written at `n` and the saved last element `p` has been appended. -/
theorem live_shift_up (m m2 : List α) (n h : Nat) (e p : α) (hn : n < h) (hh : h ≤ m.length)
    (hlen : m2.length = m.length) (hp : m[h - 1]? = some p)
    (hget : ∀ k, m2[k]? = if k = n then some e else
      if n < k ∧ k ≤ h - 1 then m[k - 1]? else m[k]?) :
    m2.take h ++ [p] = (m.take h).take n ++ [e] ++ (m.take h).drop n := by
  apply List.ext_getElem?
  intro k
  have hl1 : (m2.take h).length = h := by simp [hlen]; omega
  have hl2 : ((m.take h).take n ++ [e]).length = n + 1 := by simp; omega
  have hl3 : ((m.take h).take n).length = n := by simp; omega
  rw [List.getElem?_append, List.getElem?_append, List.getElem?_append, hl1, hl2, hl3,
    List.getElem?_take, hget k, List.getElem?_take, List.getElem?_take, List.getElem?_drop,
    List.getElem?_take]
  by_cases h1 : k < n
  · have h2 : k < h := by omega
    have h3 : k < n + 1 := by omega
    have h4 : ¬ (k = n) := by omega
    have h5 : ¬ (n < k ∧ k ≤ h - 1) := by omega
    simp [h1, h2, h3, h4, h5]
  · by_cases h2 : k = n
    · subst h2
      simp [hn]
    · have h3 : ¬ (k < n + 1) := by omega
      have h4 : n + (k - (n + 1)) = k - 1 := by omega
      by_cases h5 : k < h
      · have h6 : n < k ∧ k ≤ h - 1 := by omega
        have h7 : k - 1 < h := by omega
        simp [h1, h2, h3, h4, h5, h6, h7]
      · by_cases h6 : k = h
        · subst h6
          have h7 : k - 1 < k := by omega
          simp [h1, h3, h4, hp, h7]
        · have h7 : ¬ (k - 1 < h) := by omega
          have h8 : ([p] : List α)[k - h]? = none :=
            List.getElem?_eq_none (by simp; omega)
          simp [h1, h3, h4, h5, h7, h8]

theorem insert_ok [DecidableEq α] (err : α) (r : Option (Nat → α)) (v : vector α) (i : Int)
    (e : α) (hinv : vector_size v ≤ vector_capacity v) (h0 : 0 ≤ i) (hi : i ≤ vector_size v)
    (hr : vector_size v = vector_capacity v → r ≠ none) :
    ∃ w, vector_insert err r v i e = some w ∧
      live w.v = (live v).take i.toNat ++ [e] ++ (live v).drop i.toNat ∧
      vector_size w.v = vector_size v + 1 ∧
      vector_size w.v ≤ vector_capacity w.v ∧
      w.ret = (if i < vector_size v ∧ (live v)[vector_size v - 1]? = some err
        then err else e) := by
  obtain ⟨b, h⟩ := v
  obtain ⟨n, rfl⟩ := Int.eq_ofNat_of_zero_le h0
  replace hi : n ≤ h := by simpa [vector_size] using hi
  have hneg : ¬ ((n : Int) < 0) := by omega
  by_cases hend : n = h
  · subst hend
    obtain ⟨w, h1, h2, h3, _, h5, _, h7⟩ := append_ok err r ⟨b, n⟩ e hinv hr
    refine ⟨w, ?_, ?_, h5, h7, ?_⟩
    · unfold vector_insert
      simp only [vector_size]
      rw [if_neg hneg]
      simpa using h1
    · have hl : (live (⟨b, n⟩ : vector α)).length ≤ n := by simp [live]
      rw [h3, Int.toNat_ofNat, List.take_of_length_le hl, List.drop_of_length_le hl]
      simp
    · simp [vector_size, h2]
  · cases b with
    | none => simp [vector_size, vector_capacity] at hinv; omega
    | some m =>
      simp only [vector_size, capacity_some] at hinv hr
      have hlt : n < h := by omega
      have hp : h - 1 < m.length := by omega
      obtain ⟨m1, hrun, hlen, hget⟩ := shift_up_spec n h (h - 1) m hp
      have hn1 : n < m1.length := by omega
      obtain ⟨w, h1, h2, h3, _, h5, _, h7⟩ :=
        append_ok err r ⟨some (m1.set n e), h⟩ m[h - 1]
          (by simp [vector_size, vector_capacity]; omega)
          (by simp only [vector_size, vector_capacity, Option.getD_some, List.length_set]
              intro hc; exact hr (by omega))
      refine ⟨⟨if w.ret = err then err else e, w.v, w.reallocs⟩, ?_, ?_, h5, h7, ?_⟩
      · have e1 : ((h : Int) - 1).toNat = h - 1 := by omega
        have e2 : ¬ ((n : Int) = (h : Int)) := by omega
        have e3 : (n : Int) < (h : Int) := by omega
        simp [vector_insert, vector_size, hneg, e1, e2, e3, load, hp, hrun, store, hn1, h1]
      · simp only [h3, live_some, Int.toNat_ofNat]
        apply live_shift_up m _ n h e _ hlt hinv (by simpa using hlen) (by simp [hp])
        intro k
        rw [List.getElem?_set, hget k]
        by_cases hk : n = k
        · subst hk; simp [hn1]
        · have hk' : ¬ (k = n) := fun hc => hk hc.symm
          simp [hk, hk']
      · have e3 : (n : Int) < (h : Int) := by omega
        have hlast : (live (⟨some m, h⟩ : vector α))[h - 1]? = some m[h - 1] := by
          simp [live, List.getElem?_take, hp]; omega
        simp only [vector_size, e3, hlast, h2, true_and, Option.some.injEq]

/-! ## Facts about the live sequence -/

theorem live_length (v : vector α) (hinv : vector_size v ≤ vector_capacity v) :
    (live v).length = vector_size v := by
  simp only [vector_size, vector_capacity] at hinv
  simp [live, vector_size, hinv]

theorem pop_live (err : α) (v : vector α) (hpos : 0 < vector_size v)
    (hinv : vector_size v ≤ vector_capacity v) :
    ∃ w, vector_pop err v = some w ∧ (live v)[vector_size v - 1]? = some w.ret ∧
      live w.v = (live v).take (vector_size v - 1) ∧
      vector_size w.v + 1 = vector_size v ∧ vector_capacity w.v = vector_capacity v ∧
      w.reallocs = [] := by
  obtain ⟨b, h⟩ := v
  cases b with
  | none => simp [vector_size, vector_capacity] at hinv hpos; omega
  | some m =>
    simp only [vector_size, capacity_some] at hinv hpos
    obtain ⟨x, hx, hpop⟩ := pop_ok err m h hpos hinv
    refine ⟨_, hpop, ?_, ?_, ?_, rfl, rfl⟩
    · have : h - 1 < h := by omega
      simp [live, vector_size, List.getElem?_take, this, hx]
    · simp only [live_some, vector_size, List.take_take]
      congr 1
      omega
    · simp [vector_size]; omega

theorem insert_then_erase (L : List α) (n : Nat) (e : α) (hn : n ≤ L.length) :
    (L.take n ++ [e] ++ L.drop n).take n ++ (L.take n ++ [e] ++ L.drop n).drop (n + 1) = L := by
  have h1 : (L.take n).length = n := by simp [hn]
  have h2 : (L.take n ++ [e]).length = n + 1 := by simp [hn]
  rw [List.append_assoc, List.take_left' h1, ← List.append_assoc, List.drop_left' h2]
  exact List.take_append_drop n L

theorem inserted_at (L : List α) (n : Nat) (e : α) (hn : n ≤ L.length) :
    (L.take n ++ [e] ++ L.drop n)[n]? = some e := by
  have h1 : (L.take n).length = n := by simp [hn]
  rw [List.append_assoc, List.getElem?_append_right (by omega), h1]
  simp

theorem inserted_before (L : List α) (n j : Nat) (e : α) (hj : j < n) (hn : n ≤ L.length) :
    (L.take n ++ [e] ++ L.drop n)[j]? = L[j]? := by
  have h1 : (L.take n).length = n := by simp [hn]
  rw [List.append_assoc, List.getElem?_append_left (by omega), List.getElem?_take_of_lt hj]

theorem inserted_after (L : List α) (n j : Nat) (e : α) (hj : n ≤ j) (hn : n ≤ L.length) :
    (L.take n ++ [e] ++ L.drop n)[j + 1]? = L[j]? := by
  have h2 : (L.take n ++ [e]).length = n + 1 := by simp [hn]
  rw [List.getElem?_append_right (by omega), h2, List.getElem?_drop]
  congr 1
  omega

theorem erased_before (L : List α) (n j : Nat) (hj : j < n) (hn : n ≤ L.length) :
    (L.take n ++ L.drop (n + 1))[j]? = L[j]? := by
  have h1 : (L.take n).length = n := by simp [hn]
  rw [List.getElem?_append_left (by omega), List.getElem?_take_of_lt hj]

theorem erased_after (L : List α) (n j : Nat) (hj : n < j) (hn : n ≤ L.length) :
    (L.take n ++ L.drop (n + 1))[j - 1]? = L[j]? := by
  have h1 : (L.take n).length = n := by simp [hn]
  rw [List.getElem?_append_right (by omega), h1, List.getElem?_drop]
  congr 1
  omega

theorem live_inside (v : vector α) (hlive : (live v).length = vector_size v) :
    vector_size v ≤ vector_capacity v := by
  simp only [live, vector_size, vector_capacity, List.length_take] at hlive ⊢
  omega

/-! ## Growth -/

theorem append_full (err : α) (fill : Nat → α) (v : vector α) (e : α)
    (hfull : vector_size v = vector_capacity v) :
    ∃ w, vector_append err (some fill) v e = some w ∧
      vector_capacity w.v = vector_newsize__ (vector_capacity v) ∧
      w.reallocs = [vector_newsize__ (vector_capacity v)] := by
  obtain ⟨b, h⟩ := v
  simp only [vector_size, vector_capacity] at hfull
  subst hfull
  refine ⟨_, append_grow err fill b e, ?_, rfl⟩
  simp [vector_capacity, grown_length]

theorem vector_newsize_floor (c : Nat) :
    (vector_newsize__ c : ℤ) = ⌊(17 / 10 : ℚ) * (c : ℚ)⌋ + 1 := by
  have h : (17 / 10 : ℚ) * (c : ℚ) = (((17 * c : ℕ) : ℤ) : ℚ) / ((10 : ℕ) : ℚ) := by
    push_cast; ring
  rw [vector_newsize_eq, h, Rat.floor_intCast_div_natCast]
  push_cast
  rfl

/-- Successive successful appends keep the capacity among the iterates of
`vector_newsize__` from 0, and at the least iterate that holds the length. -/
theorem appends_capacity [DecidableEq α] (err : α) :
    ∀ (ops : List ((Nat → α) × α)) (v : vector α) (k : Nat),
      vector_capacity v = vector_newsize__^[k] 0 →
      vector_size v ≤ vector_capacity v →
      (∀ j, j < k → vector_newsize__^[j] 0 < vector_size v) →
      ∃ w k', run err v (ops.map fun p => Op.append (some p.1) p.2) = some w ∧
        vector_size w = vector_size v + ops.length ∧
        vector_capacity w = vector_newsize__^[k'] 0 ∧
        vector_size w ≤ vector_capacity w ∧
        (∀ j, j < k' → vector_newsize__^[j] 0 < vector_size w) := by
  intro ops
  induction ops with
  | nil =>
    intro v k hc hinv hlow
    exact ⟨v, k, rfl, rfl, hc, hinv, hlow⟩
  | cons p ops ih =>
    intro v k hc hinv hlow
    obtain ⟨w, h1, _, _, _, h5, h6, h7⟩ :=
      append_ok err (some p.1) v p.2 hinv (fun _ => by simp)
    have hstep : ∃ k1, vector_capacity w.v = vector_newsize__^[k1] 0 ∧
        (∀ j, j < k1 → vector_newsize__^[j] 0 < vector_size w.v) := by
      rcases Nat.lt_or_ge (vector_size v) (vector_capacity v) with hlt | hge
      · refine ⟨k, by rw [h6 hlt, hc], fun j hj => ?_⟩
        have := hlow j hj
        omega
      · have hfull : vector_size v = vector_capacity v := by omega
        obtain ⟨w2, g1, g2, _⟩ := append_full err p.1 v p.2 hfull
        have hw : w2 = w := Option.some.inj (g1.symm.trans h1)
        subst hw
        refine ⟨k + 1, by rw [g2, hc, Function.iterate_succ_apply'], fun j hj => ?_⟩
        rcases Nat.lt_or_ge j k with hjk | hjk
        · have := hlow j hjk
          omega
        · have hjk' : j = k := by omega
          rw [hjk', ← hc, h5]
          omega
    obtain ⟨k1, hc1, hlow1⟩ := hstep
    obtain ⟨w', k', r1, r2, r3, r4, r5⟩ := ih w.v k1 hc1 h7 hlow1
    refine ⟨w', k', ?_, ?_, r3, r4, r5⟩
    · simp only [List.map_cons, run, step, h1, Option.map_some', Option.some_bind]
      exact r1
    · rw [r2, h5, List.length_cons]
      omega

/-! ## Prepending is inserting at index 0 -/

theorem append_ret (err : α) (r : Option (Nat → α)) (v : vector α) (e : α) (w : Res α α)
    (hw : vector_append err r v e = some w) : w.ret = e ∨ w.ret = err := by
  simp only [vector_append] at hw
  split_ifs at hw
  all_goals first
    | (simp only [Option.some.injEq] at hw
       subst hw
       exact Or.inr rfl)
    | (simp only [Option.map_eq_some'] at hw
       obtain ⟨a, _, rfl⟩ := hw
       exact Or.inl rfl)

theorem prepend_eq_insert [DecidableEq α] (err : α) (r : Option (Nat → α)) (v : vector α)
    (e : α) : vector_prepend err r v e = vector_insert err r v 0 e := by
  obtain ⟨b, h⟩ := v
  cases h with
  | zero =>
    simp only [vector_prepend, vector_insert, vector_size]
    simp only [Nat.cast_zero, gt_iff_lt, lt_self_iff_false, ↓reduceIte, Option.some_bind]
    cases hres : vector_append err r ⟨b, 0⟩ e with
    | none => rfl
    | some w =>
      obtain ⟨ret, w1, rs⟩ := w
      rcases append_ret err r _ e _ hres with h1 | h1
      · simp only at h1
        subst h1
        simp only [Option.map_some', Option.some.injEq, Res.mk.injEq, and_true, ite_eq_right_iff]
        exact fun hc => hc.symm
      · simp only at h1
        subst h1
        simp
  | succ h =>
    have h1 : ¬ ((0 : Int) = ((h + 1 : Nat) : Int)) := by omega
    have h2 : (0 : Int) < ((h + 1 : Nat) : Int) := by omega
    simp only [vector_prepend, vector_insert, vector_size]
    simp only [gt_iff_lt, h2, ↓reduceIte, lt_self_iff_false, h1, Int.toNat_zero]
    cases load ⟨b, h + 1⟩ (((h + 1 : Nat) : Int) - 1).toNat with
    | none => rfl
    | some p =>
      simp only [Option.some_bind]
      cases shift_up 0 (((h + 1 : Nat) : Int) - 1).toNat ⟨b, h + 1⟩ with
      | none => rfl
      | some v1 =>
        simp only [Option.some_bind]
        cases store v1 0 e with
        | none => rfl
        | some v2 => rfl

/-! ## Every call on a well-formed vector is defined and keeps it well-formed -/

theorem append_total (err : α) (r : Option (Nat → α)) (v : vector α) (e : α)
    (hinv : vector_size v ≤ vector_capacity v) :
    ∃ w, vector_append err r v e = some w ∧ vector_size w.v ≤ vector_capacity w.v ∧
      (vector_capacity w.v = vector_capacity v ∨
        vector_capacity w.v = vector_newsize__ (vector_capacity v)) := by
  rcases Nat.lt_or_ge (vector_size v) (vector_capacity v) with hlt | hge
  · obtain ⟨w, h1, _, _, _, _, h6, h7⟩ :=
      append_ok err r v e hinv (fun hc => absurd hc (Nat.ne_of_lt hlt))
    exact ⟨w, h1, h7, Or.inl (h6 hlt)⟩
  · have hfull : vector_size v = vector_capacity v := by omega
    cases r with
    | some fill =>
      obtain ⟨w, h1, _, _, _, _, _, h7⟩ := append_ok err (some fill) v e hinv (fun _ => by simp)
      obtain ⟨w2, g1, g2, _⟩ := append_full err fill v e hfull
      have hw : w2 = w := Option.some.inj (g1.symm.trans h1)
      subst hw
      exact ⟨w2, h1, h7, Or.inr g2⟩
    | none =>
      have hne : vector_newsize__ (vector_capacity v) ≠ vector_capacity v :=
        Nat.ne_of_gt (vector_newsize_gt _)
      refine ⟨⟨err, v, [vector_newsize__ (vector_capacity v)]⟩, ?_, hinv, Or.inl rfl⟩
      simp only [vector_size] at hfull
      simp [vector_append, vector_resize, realloc, hfull, hne]

theorem pop_total (err : α) (v : vector α) (hinv : vector_size v ≤ vector_capacity v) :
    ∃ w, vector_pop err v = some w ∧ vector_size w.v ≤ vector_capacity w.v ∧
      vector_capacity w.v = vector_capacity v := by
  rcases Nat.eq_zero_or_pos (vector_size v) with h0 | hpos
  · refine ⟨⟨err, v, []⟩, ?_, hinv, rfl⟩
    simp only [vector_size] at h0
    simp [vector_pop, h0]
  · obtain ⟨w, h1, _, _, h4, h5, _⟩ := pop_live err v hpos hinv
    exact ⟨w, h1, by omega, h5⟩

theorem remove_total (err : α) (v : vector α) (i : Int)
    (hinv : vector_size v ≤ vector_capacity v) :
    ∃ w, vector_remove err v i = some w ∧ vector_size w.v ≤ vector_capacity w.v ∧
      vector_capacity w.v = vector_capacity v := by
  by_cases hin : 0 ≤ i ∧ i < vector_size v
  · obtain ⟨w, h1, _, _, h4, h5, _⟩ := remove_ok err v i hinv hin.1 hin.2
    exact ⟨w, h1, by omega, h5⟩
  · refine ⟨⟨err, v, []⟩, ?_, hinv, rfl⟩
    unfold vector_remove
    by_cases hneg : i < 0
    · simp [hneg]
    · have h1 : ¬ (i = (vector_size v : Int) - 1) := by omega
      have h2 : ¬ (i < (vector_size v : Int)) := by omega
      simp [hneg, h1, h2]

theorem pop_first_eq_remove (err : α) (v : vector α) :
    vector_pop_first err v = vector_remove err v 0 := by
  obtain ⟨b, h⟩ := v
  rcases Nat.lt_or_ge 1 h with h1 | h1
  · have e1 : (h : Int) > 1 := by omega
    have e2 : ¬ ((0 : Int) = (h : Int) - 1) := by omega
    have e3 : (0 : Int) < (h : Int) := by omega
    simp [vector_pop_first, vector_remove, vector_size, e1, e2, e3]
  · have e1 : ¬ ((h : Int) > 1) := by omega
    rcases Nat.eq_zero_or_pos h with h0 | hpos
    · subst h0
      simp [vector_pop_first, vector_remove, vector_size, vector_pop]
    · have e2 : (0 : Int) = (h : Int) - 1 := by omega
      simp only [vector_pop_first, vector_remove, vector_size, e1, if_false]
      simp [← e2]

theorem set_total (err : α) (r : Option (Nat → α)) (v : vector α) (i : Int) (e : α)
    (hinv : vector_size v ≤ vector_capacity v) :
    ∃ w, vector_set err r v i e = some w ∧ vector_size w.v ≤ vector_capacity w.v ∧
      (vector_capacity w.v = vector_capacity v ∨
        vector_capacity w.v = vector_newsize__ (vector_capacity v)) := by
  unfold vector_set
  by_cases hneg : i < 0
  · exact ⟨⟨err, v, []⟩, by simp [hneg], hinv, Or.inl rfl⟩
  · by_cases hlt : i < (vector_size v : Int)
    · obtain ⟨b, h⟩ := v
      obtain ⟨n, rfl⟩ := Int.eq_ofNat_of_zero_le (by omega : 0 ≤ i)
      cases b with
      | none => simp [vector_size, vector_capacity] at hinv hlt; omega
      | some m =>
        simp only [vector_size, capacity_some] at hinv hlt
        have hn : n < m.length := by omega
        refine ⟨⟨e, ⟨some (m.set n e), h⟩, []⟩, ?_, ?_, Or.inl ?_⟩
        · simp [vector_size, hlt, store, hn]
        · simpa [vector_size, vector_capacity] using hinv
        · simp [vector_capacity]
    · by_cases heq : i = (vector_size v : Int)
      · obtain ⟨w, h1, h2, h3⟩ := append_total err r v e hinv
        exact ⟨w, by simpa [hneg, hlt, heq] using h1, h2, h3⟩
      · exact ⟨⟨err, v, []⟩, by simp [hneg, hlt, heq], hinv, Or.inl rfl⟩

theorem insert_total [DecidableEq α] (err : α) (r : Option (Nat → α)) (v : vector α)
    (i : Int) (e : α) (hinv : vector_size v ≤ vector_capacity v) :
    ∃ w, vector_insert err r v i e = some w ∧ vector_size w.v ≤ vector_capacity w.v ∧
      (vector_capacity w.v = vector_capacity v ∨
        vector_capacity w.v = vector_newsize__ (vector_capacity v)) := by
  by_cases hneg : i < 0
  · exact ⟨⟨err, v, []⟩, by simp [vector_insert, hneg], hinv, Or.inl rfl⟩
  · by_cases heq : i = (vector_size v : Int)
    · obtain ⟨w, h1, h2, h3⟩ := append_total err r v e hinv
      exact ⟨w, by simpa [vector_insert, hneg, heq] using h1, h2, h3⟩
    · by_cases hlt : i < (vector_size v : Int)
      · obtain ⟨b, h⟩ := v
        obtain ⟨n, rfl⟩ := Int.eq_ofNat_of_zero_le (by omega : 0 ≤ i)
        cases b with
        | none => simp [vector_size, vector_capacity] at hinv hlt; omega
        | some m =>
          simp only [vector_size, capacity_some] at hinv hlt heq
          have hp : h - 1 < m.length := by omega
          obtain ⟨m1, hrun, hlen, _⟩ := shift_up_spec n h (h - 1) m hp
          have hn1 : n < m1.length := by omega
          obtain ⟨w, h1, h2, h3⟩ := append_total err r ⟨some (m1.set n e), h⟩ m[h - 1]
            (by simp [vector_size, vector_capacity]; omega)
          have hcap : vector_capacity (⟨some (m1.set n e), h⟩ : vector α)
              = vector_capacity (⟨some m, h⟩ : vector α) := by
            simp [vector_capacity, hlen]
          rw [hcap] at h3
          refine ⟨⟨if w.ret = err then err else e, w.v, w.reallocs⟩, ?_, h2, h3⟩
          have e1 : ((h : Int) - 1).toNat = h - 1 := by omega
          simp [vector_insert, vector_size, hneg, e1, heq, hlt, load, hp, hrun, store, hn1, h1]
      · exact ⟨⟨err, v, []⟩, by simp [vector_insert, hneg, heq, hlt], hinv, Or.inl rfl⟩

/-! ## Searching -/

theorem index_loop_spec (eq : α → α → Int) (e : α) (m : List α) (h : Nat) :
    ∀ (n i : Nat),
      (i + n ≤ m.length ∨ ∃ p, i ≤ p ∧ p < i + n ∧ ∃ x, m[p]? = some x ∧ eq e x = 0) →
      ∃ k, index_loop eq e ⟨some m, h⟩ n i = some k ∧ i ≤ k ∧ k ≤ i + n ∧
        (∀ j, i ≤ j → j < k → ∀ y, m[j]? = some y → eq e y ≠ 0) ∧
        (k < i + n → ∃ x, m[k]? = some x ∧ eq e x = 0) := by
  intro n
  induction n with
  | zero =>
    intro i _
    exact ⟨i, rfl, Nat.le_refl i, Nat.le_refl i, fun j h1 h2 => by omega, fun hc => by omega⟩
  | succ n ih =>
    intro i hi
    have hlt : i < m.length := by
      rcases hi with hi | ⟨p, hp1, _, x, hx, _⟩
      · omega
      · have hp : p < m.length := by
          rcases Nat.lt_or_ge p m.length with hlt | hge
          · exact hlt
          · rw [List.getElem?_eq_none hge] at hx; cases hx
        omega
    by_cases hm : eq e m[i] = 0
    · refine ⟨i, ?_, Nat.le_refl i, by omega, fun j h1 h2 => by omega, fun _ => ⟨m[i], ?_, hm⟩⟩
      · simp [index_loop, load, hlt, hm]
      · simp [hlt]
    · have hnext : i + 1 + n ≤ m.length ∨
          ∃ p, i + 1 ≤ p ∧ p < i + 1 + n ∧ ∃ x, m[p]? = some x ∧ eq e x = 0 := by
        rcases hi with hi | ⟨p, hp1, hp2, x, hx, hxm⟩
        · exact Or.inl (by omega)
        · refine Or.inr ⟨p, ?_, by omega, x, hx, hxm⟩
          rcases Nat.eq_or_lt_of_le hp1 with hip | hip
          · subst hip
            rw [List.getElem?_eq_getElem hlt] at hx
            rw [Option.some.inj hx] at hm
            exact absurd hxm hm
          · exact hip
      obtain ⟨k, h1, h2, h3, h4, h5⟩ := ih (i + 1) hnext
      refine ⟨k, ?_, by omega, by omega, fun j g1 g2 y hy => ?_, fun hc => h5 (by omega)⟩
      · simp [index_loop, load, hlt, hm, h1]
      · rcases Nat.eq_or_lt_of_le g1 with g3 | g3
        · subst g3
          rw [List.getElem?_eq_getElem hlt] at hy
          rw [← Option.some.inj hy]
          exact hm
        · exact h4 j g3 g2 y hy

theorem index_of_ok (v : vector α) (e : α) (eq : α → α → Int)
    (hscan : vector_size v ≤ vector_capacity v ∨ ∃ x ∈ live v, eq e x = 0) :
    ∃ k, index_loop eq e v (vector_size v) 0 = some k ∧ k ≤ vector_size v ∧
      (∀ j, j < k → ∀ y, (live v)[j]? = some y → eq e y ≠ 0) ∧
      (k < vector_size v → ∃ x, (live v)[k]? = some x ∧ eq e x = 0) := by
  obtain ⟨b, h⟩ := v
  cases b with
  | none =>
    have h0 : h = 0 := by
      rcases hscan with hinv | ⟨x, hx, _⟩
      · simpa [vector_size, vector_capacity] using hinv
      · simp [live] at hx
    subst h0
    exact ⟨0, rfl, Nat.le_refl 0, fun j hj => absurd hj (Nat.not_lt_zero j),
      fun hc => absurd hc (Nat.lt_irrefl 0)⟩
  | some m =>
    simp only [vector_size, capacity_some] at hscan ⊢
    have hloop : 0 + h ≤ m.length ∨
        ∃ p, 0 ≤ p ∧ p < 0 + h ∧ ∃ x, m[p]? = some x ∧ eq e x = 0 := by
      rcases hscan with hinv | ⟨x, hx, hxm⟩
      · exact Or.inl (by omega)
      · obtain ⟨p, hp⟩ := List.mem_iff_getElem?.mp hx
        rw [live_some, List.getElem?_take] at hp
        by_cases hph : p < h
        · rw [if_pos hph] at hp
          exact Or.inr ⟨p, Nat.zero_le p, by omega, x, hp, hxm⟩
        · rw [if_neg hph] at hp; cases hp
    obtain ⟨k, h1, _, h3, h4, h5⟩ := index_loop_spec eq e m h h 0 hloop
    refine ⟨k, h1, by omega, fun j hj y hy => ?_, fun hk => ?_⟩
    · rw [live_some, List.getElem?_take] at hy
      have hjh : j < h := by omega
      rw [if_pos hjh] at hy
      exact h4 j (Nat.zero_le j) hj y hy
    · obtain ⟨x, hx, hm⟩ := h5 (by omega)
      refine ⟨x, ?_, hm⟩
      rw [live_some, List.getElem?_take, if_pos hk]
      exact hx

/-! ## Trimming and overwriting -/

theorem take_set_comm (m : List α) (h n : Nat) (e : α) :
    (m.set n e).take h = (m.take h).set n e := by
  apply List.ext_getElem?
  intro k
  rw [List.getElem?_take, List.getElem?_set, List.getElem?_set, List.getElem?_take,
    List.length_take]
  by_cases hk : k < h
  · by_cases hn : n = k
    · subst hn
      by_cases hl : n < m.length
      · have : n < min h m.length := by omega
        simp [hk, hl, this]
      · have : ¬ (n < min h m.length) := by omega
        simp [hk, hl, this]
    · simp [hk, hn]
  · by_cases hn : n = k
    · subst hn
      have : ¬ (n < min h m.length) := by omega
      simp [hk, this]
    · simp [hk, hn]

theorem trim_ok (r : Option (Nat → α)) (v : vector α)
    (hr : vector_size v ≠ vector_capacity v → r ≠ none) :
    vector_capacity (vector_trim r v).v = vector_size (vector_trim r v).v ∧
    vector_size (vector_trim r v).v = vector_size v ∧
    (∀ (k : Nat) (x : α), (live v)[k]? = some x → (live (vector_trim r v).v)[k]? = some x) ∧
    (vector_size v ≤ vector_capacity v → live (vector_trim r v).v = live v) := by
  obtain ⟨b, h⟩ := v
  by_cases hfull : h = (b.getD []).length
  · have hv : (vector_trim r ⟨b, h⟩).v = ⟨b, h⟩ := by
      simp [vector_trim, vector_resize, vector_size, vector_capacity, hfull]
    rw [hv]
    exact ⟨by simp [vector_size, vector_capacity, hfull], rfl, fun k x hx => hx, fun _ => rfl⟩
  · obtain ⟨fill, rfl⟩ := Option.ne_none_iff_exists'.mp
      (hr (by simpa [vector_size, vector_capacity] using hfull))
    have hv : (vector_trim (some fill) ⟨b, h⟩).v =
        ⟨some ((b.getD []).take h ++
          (List.range' (b.getD []).length (h - (b.getD []).length)).map fill), h⟩ := by
      simp [vector_trim, vector_resize, vector_size, vector_capacity, hfull, realloc]
    rw [hv]
    refine ⟨?_, rfl, fun k x hx => ?_, fun hinv => ?_⟩
    · simp [vector_size, vector_capacity]; omega
    · simp only [live, Option.getD_some, List.getElem?_take] at hx ⊢
      by_cases hk : k < h
      · rw [if_pos hk] at hx ⊢
        have hkm : k < (b.getD []).length := by
          rcases Nat.lt_or_ge k (b.getD []).length with hlt | hge
          · exact hlt
          · rw [List.getElem?_eq_none hge] at hx; cases hx
        rw [List.getElem?_append_left (by simp; omega), List.getElem?_take_of_lt hk]
        exact hx
      · rw [if_neg hk] at hx; cases hx
    · simp only [vector_size, vector_capacity] at hinv
      have hz : h - (b.getD []).length = 0 := by omega
      simp [live, hz]

theorem kept_or_grown_of (v w : vector α)
    (hc : vector_capacity w = vector_capacity v ∨
      vector_capacity w = vector_newsize__ (vector_capacity v)) :
    capacity_kept_or_grown v w ∧ vector_capacity v ≤ vector_capacity w := by
  have hgt := vector_newsize_gt (vector_capacity v)
  rcases hc with hc | hc
  · exact ⟨Or.inl hc, by omega⟩
  · exact ⟨Or.inr ⟨hc, by omega⟩, by omega⟩

theorem trim_total (r : Option (Nat → α)) (v : vector α)
    (hinv : vector_size v ≤ vector_capacity v) :
    vector_size (vector_trim r v).v ≤ vector_capacity (vector_trim r v).v := by
  cases r with
  | some fill =>
    have h := trim_ok (some fill) v (fun _ => by simp)
    omega
  | none =>
    have hv : (vector_trim none v).v = v := by
      simp only [vector_trim, vector_resize, realloc]
      split_ifs <;> rfl
    rw [hv]
    exact hinv

theorem set_ok (err : α) (r : Option (Nat → α)) (v : vector α) (i : Int) (e : α)
    (hinv : vector_size v ≤ vector_capacity v) (h0 : 0 ≤ i) (hi : i < vector_size v) :
    ∃ w, vector_set err r v i e = some w ∧ w.ret = e ∧
      load w.v i.toNat = some e ∧
      (∀ k, k ≠ i.toNat → load w.v k = load v k) ∧
      live w.v = (live v).set i.toNat e ∧
      vector_size w.v = vector_size v ∧
      vector_capacity w.v = vector_capacity v ∧
      w.reallocs = [] := by
  obtain ⟨b, h⟩ := v
  obtain ⟨n, rfl⟩ := Int.eq_ofNat_of_zero_le h0
  have hneg : ¬ ((n : Int) < 0) := by omega
  cases b with
  | none => simp [vector_size, vector_capacity] at hinv hi; omega
  | some m =>
    simp only [vector_size, capacity_some] at hinv hi
    have hn : n < m.length := by omega
    refine ⟨⟨e, ⟨some (m.set n e), h⟩, []⟩, ?_, rfl, ?_, fun k hk => ?_, ?_, rfl, ?_, rfl⟩
    · simp [vector_set, vector_size, hi, store, hn]
    · simp [load, hn]
    · have hk' : ¬ (n = k) := fun hc => hk (by simp [hc])
      simp [load, List.getElem?_set, hk']
    · simp [live, take_set_comm]
    · simp [vector_capacity]

theorem set_at_length (err : α) (r : Option (Nat → α)) (v : vector α) (e : α) :
    vector_set err r v (vector_size v) e = vector_append err r v e := by
  have hneg : ¬ ((vector_size v : Int) < 0) := by omega
  simp [vector_set, hneg]

/-! ## Contracts of the operations -/

/-- C1: on a vector with `length ≤ capacity`, when the reallocation that
`vector_append` may need (the one of a full vector) succeeds, the call is
defined and returns `e`, the live sequence becomes the old one followed by
`e`, every old element keeps its index, the length grows by exactly one, and
the capacity is unchanged when there was spare room. -/
theorem C1_append_contract (err : α) (r : Option (Nat → α)) (v : vector α) (e : α)
    (hinv : vector_size v ≤ vector_capacity v)
    (hr : vector_size v = vector_capacity v → r ≠ none) :
    ∃ w, vector_append err r v e = some w ∧ w.ret = e ∧
      live w.v = live v ++ [e] ∧
      (∀ k, k < vector_size v → load w.v k = load v k) ∧
      vector_size w.v = vector_size v + 1 ∧
      (vector_size v < vector_capacity v → vector_capacity w.v = vector_capacity v) := by
  obtain ⟨w, h1, h2, h3, h4, h5, h6, _⟩ := append_ok err r v e hinv hr
  exact ⟨w, h1, h2, h3, h4, h5, h6⟩

theorem C1_append_contract_witness :
    ∃ w, vector_append (0 : Nat) (some fun _ => 0) ⟨some [5, 6], 2⟩ 7 = some w ∧ w.ret = 7 ∧
      live w.v = live ⟨some [5, 6], 2⟩ ++ [7] ∧
      (∀ k, k < vector_size (⟨some [5, 6], 2⟩ : vector Nat) →
        load w.v k = load ⟨some [5, 6], 2⟩ k) ∧
      vector_size w.v = vector_size (⟨some [5, 6], 2⟩ : vector Nat) + 1 ∧
      (vector_size (⟨some [5, 6], 2⟩ : vector Nat) <
          vector_capacity (⟨some [5, 6], 2⟩ : vector Nat) →
        vector_capacity w.v = vector_capacity (⟨some [5, 6], 2⟩ : vector Nat)) :=
  C1_append_contract 0 (some fun _ => 0) ⟨some [5, 6], 2⟩ 7 (by decide) (fun _ => by simp)

/-- C2: the size/capacity invariant does not survive every sequence of calls
from the empty vector.  After `append(1); append(2); resize(1)`, all three
allocations succeeding, `vector_resize` has moved `end` to `base + 1` and left
`head` at `base + 2`: the length is 2 and the capacity is 1. -/
theorem C2_resize_breaks_invariant :
    ∃ w, run (0 : Nat) VECTOR_EMPTY_INITIALIZER
        [.append (some fun _ => 0) 1, .append (some fun _ => 0) 2,
          .resize (some fun _ => 0) 1] = some w ∧
      vector_size w = 2 ∧ vector_capacity w = 1 ∧
      ¬ (vector_size w ≤ vector_capacity w) := by
  refine ⟨⟨some [1], 2⟩, ?_, rfl, rfl, by decide⟩
  simp [run, step, VECTOR_EMPTY_INITIALIZER, vector_append, vector_resize, realloc,
    vector_capacity, vector_newsize_eq, store, List.range']

/-- C3: on a vector with `length ≤ capacity` and live sequence `xs`, for
`0 ≤ i ≤ length`, when the reallocation a full vector needs succeeds,
`vector_insert(v, i, e)` is defined and leaves the live sequence
`take i xs ++ [e] ++ drop i xs`: `e` is at index `i`, every element formerly at
`j ≥ i` is at `j + 1`, the elements before `i` are untouched, and the length
has grown by exactly one. -/
theorem C3_insert_contract [DecidableEq α] (err : α) (r : Option (Nat → α)) (v : vector α)
    (i : Int) (e : α) (hinv : vector_size v ≤ vector_capacity v)
    (h0 : 0 ≤ i) (hi : i ≤ vector_size v)
    (hr : vector_size v = vector_capacity v → r ≠ none) :
    ∃ w, vector_insert err r v i e = some w ∧
      live w.v = (live v).take i.toNat ++ [e] ++ (live v).drop i.toNat ∧
      (live w.v)[i.toNat]? = some e ∧
      (∀ j, i.toNat ≤ j → j < vector_size v → (live w.v)[j + 1]? = (live v)[j]?) ∧
      (∀ j, j < i.toNat → (live w.v)[j]? = (live v)[j]?) ∧
      vector_size w.v = vector_size v + 1 := by
  obtain ⟨w, h1, h2, h3, _, _⟩ := insert_ok err r v i e hinv h0 hi hr
  have hn : i.toNat ≤ (live v).length := by
    rw [live_length v hinv]; omega
  refine ⟨w, h1, h2, ?_, ?_, ?_, h3⟩
  · rw [h2]; exact inserted_at _ _ _ hn
  · intro j hj _
    rw [h2]; exact inserted_after _ _ _ _ hj hn
  · intro j hj
    rw [h2]; exact inserted_before _ _ _ _ hj hn

theorem C3_insert_contract_witness :
    ∃ w, vector_insert (0 : Nat) (some fun _ => 0) ⟨some [1, 2, 3], 3⟩ 1 9 = some w ∧
      live w.v = (live ⟨some [1, 2, 3], 3⟩).take (1 : Int).toNat ++ [9] ++
        (live ⟨some [1, 2, 3], 3⟩).drop (1 : Int).toNat ∧
      (live w.v)[(1 : Int).toNat]? = some 9 ∧
      (∀ j, (1 : Int).toNat ≤ j → j < vector_size (⟨some [1, 2, 3], 3⟩ : vector Nat) →
        (live w.v)[j + 1]? = (live ⟨some [1, 2, 3], 3⟩)[j]?) ∧
      (∀ j, j < (1 : Int).toNat → (live w.v)[j]? = (live ⟨some [1, 2, 3], 3⟩)[j]?) ∧
      vector_size w.v = vector_size (⟨some [1, 2, 3], 3⟩ : vector Nat) + 1 :=
  C3_insert_contract 0 (some fun _ => 0) ⟨some [1, 2, 3], 3⟩ 1 9 (by decide) (by decide)
    (by decide) (fun _ => by simp)

/-- C4: on a vector with a live sequence `xs` (the `length` slots from `base`
on are slots of its block), for `0 ≤ i < length`, `vector_remove(v, i)` is defined, returns `xs[i]`, leaves the
live sequence `xs` with index `i` deleted (elements before `i` untouched, every
element formerly at `j > i` now at `j - 1`), decreases the length by exactly
one, leaves the capacity unchanged and calls no `realloc`. -/
theorem C4_remove_contract (err : α) (v : vector α) (i : Int)
    (hlive : (live v).length = vector_size v) (h0 : 0 ≤ i) (hi : i < vector_size v) :
    ∃ w, vector_remove err v i = some w ∧
      (live v)[i.toNat]? = some w.ret ∧
      live w.v = (live v).take i.toNat ++ (live v).drop (i.toNat + 1) ∧
      (∀ j, j < i.toNat → (live w.v)[j]? = (live v)[j]?) ∧
      (∀ j, i.toNat < j → (live w.v)[j - 1]? = (live v)[j]?) ∧
      vector_size w.v + 1 = vector_size v ∧
      vector_capacity w.v = vector_capacity v ∧
      w.reallocs = [] := by
  have hinv : vector_size v ≤ vector_capacity v := live_inside v hlive
  obtain ⟨w, h1, h2, h3, h4, h5, h6⟩ := remove_ok err v i hinv h0 hi
  have hn : i.toNat ≤ (live v).length := by
    rw [hlive]; omega
  refine ⟨w, h1, h2, h3, ?_, ?_, h4, h5, h6⟩
  · intro j hj
    rw [h3]; exact erased_before _ _ _ hj hn
  · intro j hj
    rw [h3]; exact erased_after _ _ _ hj hn

theorem C4_remove_contract_witness :
    ∃ w, vector_remove (0 : Nat) ⟨some [1, 2, 3, 0], 3⟩ 1 = some w ∧
      (live ⟨some [1, 2, 3, 0], 3⟩)[(1 : Int).toNat]? = some w.ret ∧
      live w.v = (live ⟨some [1, 2, 3, 0], 3⟩).take (1 : Int).toNat ++
        (live ⟨some [1, 2, 3, 0], 3⟩).drop ((1 : Int).toNat + 1) ∧
      (∀ j, j < (1 : Int).toNat → (live w.v)[j]? = (live ⟨some [1, 2, 3, 0], 3⟩)[j]?) ∧
      (∀ j, (1 : Int).toNat < j → (live w.v)[j - 1]? = (live ⟨some [1, 2, 3, 0], 3⟩)[j]?) ∧
      vector_size w.v + 1 = vector_size (⟨some [1, 2, 3, 0], 3⟩ : vector Nat) ∧
      vector_capacity w.v = vector_capacity (⟨some [1, 2, 3, 0], 3⟩ : vector Nat) ∧
      w.reallocs = [] :=
  C4_remove_contract 0 ⟨some [1, 2, 3, 0], 3⟩ 1 (by decide) (by decide) (by decide)

/-- C5: on a vector with `length ≤ capacity`, for `0 ≤ i ≤ length`, when the
reallocation a full vector needs succeeds, `vector_insert(v, i, e)` followed by
`vector_remove(v, i)` are both defined, the remove returns `e`, and the live
sequence and the length are exactly what they were before the insert. -/
theorem C5_insert_remove_inverse [DecidableEq α] (err : α) (r : Option (Nat → α))
    (v : vector α) (i : Int) (e : α) (hinv : vector_size v ≤ vector_capacity v)
    (h0 : 0 ≤ i) (hi : i ≤ vector_size v)
    (hr : vector_size v = vector_capacity v → r ≠ none) :
    ∃ w, vector_insert err r v i e = some w ∧
      ∃ w', vector_remove err w.v i = some w' ∧ w'.ret = e ∧
        live w'.v = live v ∧ vector_size w'.v = vector_size v := by
  obtain ⟨w, h1, h2, h3, h4, _⟩ := insert_ok err r v i e hinv h0 hi hr
  obtain ⟨w', g1, g2, g3, g4, _, _⟩ := remove_ok err w.v i h4 h0 (by rw [h3]; push_cast; omega)
  have hn : i.toNat ≤ (live v).length := by
    rw [live_length v hinv]; omega
  refine ⟨w, h1, w', g1, ?_, ?_, by omega⟩
  · rw [h2, inserted_at _ _ _ hn] at g2
    exact (Option.some.inj g2).symm
  · rw [g3, h2]
    exact insert_then_erase _ _ _ hn

theorem C5_insert_remove_inverse_witness :
    ∃ w, vector_insert (0 : Nat) (some fun _ => 0) ⟨some [1, 2, 3], 3⟩ 1 9 = some w ∧
      ∃ w', vector_remove 0 w.v 1 = some w' ∧ w'.ret = 9 ∧
        live w'.v = live ⟨some [1, 2, 3], 3⟩ ∧
        vector_size w'.v = vector_size (⟨some [1, 2, 3], 3⟩ : vector Nat) :=
  C5_insert_remove_inverse 0 (some fun _ => 0) ⟨some [1, 2, 3], 3⟩ 1 9 (by decide) (by decide)
    (by decide) (fun _ => by simp)

/-- C6: on a vector with `length ≤ capacity`, when the reallocation a full
vector needs succeeds, `vector_append(v, e)` immediately followed by
`vector_pop(v)` are both defined, the pop returns `e`, and the length and the
live sequence are what they were before the append. -/
theorem C6_append_pop_duality (err : α) (r : Option (Nat → α)) (v : vector α) (e : α)
    (hinv : vector_size v ≤ vector_capacity v)
    (hr : vector_size v = vector_capacity v → r ≠ none) :
    ∃ w, vector_append err r v e = some w ∧
      ∃ w', vector_pop err w.v = some w' ∧ w'.ret = e ∧
        vector_size w'.v = vector_size v ∧ live w'.v = live v := by
  obtain ⟨w, h1, _, h3, _, h5, _, h7⟩ := append_ok err r v e hinv hr
  obtain ⟨w', g1, g2, g3, g4, _, _⟩ := pop_live err w.v (by omega) h7
  have hl := live_length v hinv
  refine ⟨w, h1, w', g1, ?_, by omega, ?_⟩
  · rw [h3, h5, Nat.add_sub_cancel, List.getElem?_append_right (by omega), hl] at g2
    simpa using g2.symm
  · rw [g3, h3, h5, Nat.add_sub_cancel, List.take_left' hl]

theorem C6_append_pop_duality_witness :
    ∃ w, vector_append (0 : Nat) (some fun _ => 0) ⟨some [5, 6], 2⟩ 7 = some w ∧
      ∃ w', vector_pop 0 w.v = some w' ∧ w'.ret = 7 ∧
        vector_size w'.v = vector_size (⟨some [5, 6], 2⟩ : vector Nat) ∧
        live w'.v = live ⟨some [5, 6], 2⟩ :=
  C6_append_pop_duality 0 (some fun _ => 0) ⟨some [5, 6], 2⟩ 7 (by decide) (fun _ => by simp)

/-- C7: a failed growth inside `vector_insert` or `vector_prepend` does not
leave the vector as it was.  On the full vector `[1, 2]` with `realloc`
failing, `insert(0, 9)` and `prepend(9)` report `VECTOR_ERROR` but leave the
contents `[9, 1]`: the elements were shifted and `9` written before the append
of the saved last element failed, and that element `2` is lost.  The sibling
paths `vector_append` and `vector_set` at index `length` leave the same vector
untouched under the same failure. -/
theorem C7_failed_growth_after_shift :
    vector_insert (0 : Nat) none ⟨some [1, 2], 2⟩ 0 9 = some ⟨0, ⟨some [9, 1], 2⟩, [4]⟩ ∧
    vector_prepend (0 : Nat) none ⟨some [1, 2], 2⟩ 9 = some ⟨0, ⟨some [9, 1], 2⟩, [4]⟩ ∧
    live (⟨some [9, 1], 2⟩ : vector Nat) ≠ live ⟨some [1, 2], 2⟩ ∧
    vector_append (0 : Nat) none ⟨some [1, 2], 2⟩ 9 = some ⟨0, ⟨some [1, 2], 2⟩, [4]⟩ ∧
    vector_set (0 : Nat) none ⟨some [1, 2], 2⟩ 2 9 = some ⟨0, ⟨some [1, 2], 2⟩, [4]⟩ := by
  refine ⟨?_, ?_, by decide, ?_, ?_⟩
  · simp [vector_insert, vector_size, load, store, shift_up, vector_append, vector_resize,
      realloc, vector_capacity, vector_newsize_eq]
  · simp [vector_prepend, vector_size, load, store, shift_up, vector_append, vector_resize,
      realloc, vector_capacity, vector_newsize_eq]
  · simp [vector_append, vector_resize, realloc, vector_capacity, vector_newsize_eq]
  · simp [vector_set, vector_size, vector_append, vector_resize, realloc, vector_capacity,
      vector_newsize_eq]

/-- C8: with `VECTOR_RESIZE_FACTOR` the exact rational 7/10, a successful
`vector_append` on a vector whose length equals its capacity `c` requests and
obtains the capacity `floor(1.70 * c) + 1`; so any number of successful appends
to the empty vector leaves the capacity at an iterate of `c ↦ floor(1.70 * c) + 1`
from 0 (the least one that holds the length), and the iterates start
0, 1, 2, 4, 7, 12. -/
theorem C8_growth_sequence [DecidableEq α] (err : α) :
    (∀ (fill : Nat → α) (v : vector α) (e : α), vector_size v = vector_capacity v →
      ∃ w, vector_append err (some fill) v e = some w ∧
        w.reallocs = [vector_capacity w.v] ∧
        (vector_capacity w.v : ℤ) = ⌊(17 / 10 : ℚ) * (vector_capacity v : ℚ)⌋ + 1) ∧
    (∀ ops : List ((Nat → α) × α),
      ∃ w k, run err VECTOR_EMPTY_INITIALIZER (ops.map fun p => Op.append (some p.1) p.2)
          = some w ∧
        vector_size w = ops.length ∧
        vector_capacity w = vector_newsize__^[k] 0 ∧
        ops.length ≤ vector_newsize__^[k] 0 ∧
        (∀ j, j < k → vector_newsize__^[j] 0 < ops.length)) ∧
    (List.range 6).map (fun k => vector_newsize__^[k] 0) = [0, 1, 2, 4, 7, 12] := by
  refine ⟨fun fill v e hfull => ?_, fun ops => ?_, ?_⟩
  · obtain ⟨w, h1, h2, h3⟩ := append_full err fill v e hfull
    exact ⟨w, h1, by rw [h3, h2], by rw [h2, vector_newsize_floor]⟩
  · obtain ⟨w, k, h1, h2, h3, h4, h5⟩ :=
      appends_capacity err ops VECTOR_EMPTY_INITIALIZER 0 rfl (Nat.le_refl _)
        (fun j hj => absurd hj (Nat.not_lt_zero j))
    have hsz : vector_size w = ops.length := by
      rw [h2]; simp [vector_size, VECTOR_EMPTY_INITIALIZER]
    refine ⟨w, k, h1, hsz, h3, ?_, ?_⟩
    · rw [← h3, ← hsz]; exact h4
    · intro j hj; rw [← hsz]; exact h5 j hj
  · simp [List.range, List.range.loop, Function.iterate_succ_apply', vector_newsize_eq]

theorem C8_growth_sequence_witness :
    ∃ w, vector_append (0 : Nat) (some fun _ => 0) ⟨some [1, 2, 3, 4], 4⟩ 5 = some w ∧
      w.reallocs = [vector_capacity w.v] ∧
      (vector_capacity w.v : ℤ) =
        ⌊(17 / 10 : ℚ) * (vector_capacity (⟨some [1, 2, 3, 4], 4⟩ : vector Nat) : ℚ)⌋ + 1 :=
  (C8_growth_sequence (0 : Nat)).1 (fun _ => 0) ⟨some [1, 2, 3, 4], 4⟩ 5 rfl

/-- C9: on an empty vector (length 0, any capacity), `vector_pop`,
`vector_pop_first` and `vector_remove(v, 0)` are defined, return the error
value, call no `realloc` and leave the vector as it was. -/
theorem C9_empty_vector_errors (err : α) (v : vector α) (hempty : vector_size v = 0) :
    vector_pop err v = some ⟨err, v, []⟩ ∧
    vector_pop_first err v = some ⟨err, v, []⟩ ∧
    vector_remove err v 0 = some ⟨err, v, []⟩ := by
  obtain ⟨b, h⟩ := v
  simp only [vector_size] at hempty
  subst hempty
  refine ⟨?_, ?_, ?_⟩
  · simp [vector_pop]
  · simp [vector_pop_first, vector_pop, vector_size]
  · simp [vector_remove, vector_size]

theorem C9_empty_vector_errors_witness :
    vector_pop (0 : Nat) ⟨some [4, 5], 0⟩ = some ⟨0, ⟨some [4, 5], 0⟩, []⟩ ∧
    vector_pop_first (0 : Nat) ⟨some [4, 5], 0⟩ = some ⟨0, ⟨some [4, 5], 0⟩, []⟩ ∧
    vector_remove (0 : Nat) ⟨some [4, 5], 0⟩ 0 = some ⟨0, ⟨some [4, 5], 0⟩, []⟩ :=
  C9_empty_vector_errors 0 ⟨some [4, 5], 0⟩ rfl

/-- C10: for every vector, element and integer index, `vector_insert` and
`vector_set` with `i < 0` or `i > length`, and `vector_remove` with `i < 0` or
`i ≥ length`, are defined, return the error value, call no `realloc` and leave
the vector as it was. -/
theorem C10_out_of_range_errors [DecidableEq α] (err : α) (r : Option (Nat → α))
    (v : vector α) (i : Int) (e : α) :
    ((i < 0 ∨ (vector_size v : Int) < i) →
      vector_insert err r v i e = some ⟨err, v, []⟩ ∧
      vector_set err r v i e = some ⟨err, v, []⟩) ∧
    ((i < 0 ∨ (vector_size v : Int) ≤ i) →
      vector_remove err v i = some ⟨err, v, []⟩) := by
  refine ⟨fun hi => ⟨?_, ?_⟩, fun hi => ?_⟩
  · unfold vector_insert
    by_cases hneg : i < 0
    · simp [hneg]
    · have h1 : ¬ (i = (vector_size v : Int)) := by omega
      have h2 : ¬ (i < (vector_size v : Int)) := by omega
      simp [hneg, h1, h2]
  · unfold vector_set
    by_cases hneg : i < 0
    · simp [hneg]
    · have h1 : ¬ (i = (vector_size v : Int)) := by omega
      have h2 : ¬ (i < (vector_size v : Int)) := by omega
      simp [hneg, h1, h2]
  · unfold vector_remove
    by_cases hneg : i < 0
    · simp [hneg]
    · have h1 : ¬ (i = (vector_size v : Int) - 1) := by omega
      have h2 : ¬ (i < (vector_size v : Int)) := by omega
      simp [hneg, h1, h2]

theorem C10_out_of_range_errors_witness :
    (vector_insert (0 : Nat) (some fun _ => 0) ⟨some [4, 5], 2⟩ 3 7
        = some ⟨0, ⟨some [4, 5], 2⟩, []⟩ ∧
      vector_set (0 : Nat) (some fun _ => 0) ⟨some [4, 5], 2⟩ 3 7
        = some ⟨0, ⟨some [4, 5], 2⟩, []⟩) ∧
    vector_remove (0 : Nat) ⟨some [4, 5], 2⟩ 3 = some ⟨0, ⟨some [4, 5], 2⟩, []⟩ :=
  ⟨(C10_out_of_range_errors 0 (some fun _ => 0) ⟨some [4, 5], 2⟩ 3 7).1 (by decide),
    (C10_out_of_range_errors 0 (some fun _ => 0) ⟨some [4, 5], 2⟩ 3 7).2 (by decide)⟩

/-- A vector outside the domain of C11 as it is stated: on the one-slot block
`[1]` with `head` two slots past `base` (the vector that `append(1); append(2);
resize(1)` leaves behind) no live element matches `5`, yet `vector_index_of`
does not return `-1` and `vector_contains` does not return false: the scan
reads `base[1]`, past the block, and both calls are undefined. -/
theorem C11_index_of_past_block :
    run (0 : Int) VECTOR_EMPTY_INITIALIZER
        [.append (some fun _ => 0) 1, .append (some fun _ => 0) 2,
          .resize (some fun _ => 0) 1] = some ⟨some [1], 2⟩ ∧
    (¬ ∃ x ∈ live (⟨some [1], 2⟩ : vector Int), int_cmp 5 x = 0) ∧
    vector_index_of ⟨some [1], 2⟩ 5 int_cmp ≠ some (-1) ∧
    vector_index_of ⟨some [1], 2⟩ 5 int_cmp = none ∧
    vector_contains ⟨some [1], 2⟩ 5 int_cmp ≠ some false ∧
    vector_contains ⟨some [1], 2⟩ 5 int_cmp = none := by
  refine ⟨?_, by decide, by decide, by decide, by decide, by decide⟩
  simp [run, step, VECTOR_EMPTY_INITIALIZER, vector_append, vector_resize, realloc,
    vector_capacity, vector_newsize_eq, store, List.range']

/-- C11: on every vector on which the scan stays inside the block, that is
with `length ≤ capacity` or with a matching element (`eq(e, x) == 0`) among the
slots of the block below `length`, `vector_index_of(v, e, eq)` is defined; when
some live element matches it returns the smallest index in `[0, length)` whose
element matches; it returns `-1`, which is no index, exactly when no live
element matches; and `vector_contains` is true exactly when some live element
matches. -/
theorem C11_index_of_contract (v : vector α) (e : α) (eq : α → α → Int)
    (hscan : vector_size v ≤ vector_capacity v ∨ ∃ x ∈ live v, eq e x = 0) :
    ∃ r, vector_index_of v e eq = some r ∧
      ((∃ x ∈ live v, eq e x = 0) →
        ∃ i : Nat, r = (i : Int) ∧ i < vector_size v ∧
          (∃ x, (live v)[i]? = some x ∧ eq e x = 0) ∧
          ∀ j, j < i → ∀ y, (live v)[j]? = some y → eq e y ≠ 0) ∧
      (r = -1 ↔ ¬ ∃ x ∈ live v, eq e x = 0) ∧
      (r = -1 → ¬ (0 ≤ r ∧ r < (vector_size v : Int))) ∧
      vector_contains v e eq = some (r != -1) ∧
      (vector_contains v e eq = some true ↔ ∃ x ∈ live v, eq e x = 0) := by
  obtain ⟨k, h1, h2, h3, h4⟩ := index_of_ok v e eq hscan
  have hlen : (live v).length ≤ vector_size v := by
    simp only [live, vector_size, List.length_take]
    omega
  have hnone : k = vector_size v → ¬ ∃ x ∈ live v, eq e x = 0 := by
    rintro hk ⟨x, hx, hm⟩
    obtain ⟨j, hj, hjx⟩ := List.getElem_of_mem hx
    exact h3 j (by omega) x (by rw [List.getElem?_eq_getElem hj, hjx]) hm
  have hsome : k < vector_size v → ∃ x ∈ live v, eq e x = 0 := by
    intro hk
    obtain ⟨x, hx, hm⟩ := h4 hk
    exact ⟨x, List.getElem?_mem hx, hm⟩
  have hidx : vector_index_of v e eq = some (if k = vector_size v then -1 else (k : Int)) := by
    simp [vector_index_of, h1]
  have hiff : (if k = vector_size v then (-1 : Int) else (k : Int)) = -1 ↔
      ¬ ∃ x ∈ live v, eq e x = 0 := by
    by_cases hk : k = vector_size v
    · simp only [hk, if_true, true_iff]
      exact hnone hk
    · have hk' : k < vector_size v := by omega
      simp only [hk, if_false]
      constructor
      · intro hc; omega
      · intro hc; exact absurd (hsome hk') hc
  refine ⟨_, hidx, fun hex => ?_, hiff, fun hr hc => ?_, ?_, ?_⟩
  · have hk : k < vector_size v := by
      rcases Nat.lt_or_ge k (vector_size v) with hlt | hge
      · exact hlt
      · exact absurd hex (hnone (by omega))
    exact ⟨k, by simp [Nat.ne_of_lt hk], hk, h4 hk, h3⟩
  · rw [hr] at hc; omega
  · simp [vector_contains, hidx]
  · simp only [vector_contains, hidx, Option.map_some', Option.some.injEq, bne_iff_ne, ne_eq]
    rw [hiff]
    exact not_not

theorem C11_index_of_contract_witness :
    ∃ r, vector_index_of ⟨some [7, 8, 9], 3⟩ 8 int_cmp = some r ∧
      ((∃ x ∈ live ⟨some [7, 8, 9], 3⟩, int_cmp 8 x = 0) →
        ∃ i : Nat, r = (i : Int) ∧ i < vector_size (⟨some [7, 8, 9], 3⟩ : vector Int) ∧
          (∃ x, (live ⟨some [7, 8, 9], 3⟩)[i]? = some x ∧ int_cmp 8 x = 0) ∧
          ∀ j, j < i → ∀ y, (live ⟨some [7, 8, 9], 3⟩)[j]? = some y → int_cmp 8 y ≠ 0) ∧
      (r = -1 ↔ ¬ ∃ x ∈ live ⟨some [7, 8, 9], 3⟩, int_cmp 8 x = 0) ∧
      (r = -1 → ¬ (0 ≤ r ∧ r < (vector_size (⟨some [7, 8, 9], 3⟩ : vector Int) : Int))) ∧
      vector_contains ⟨some [7, 8, 9], 3⟩ 8 int_cmp = some (r != -1) ∧
      (vector_contains ⟨some [7, 8, 9], 3⟩ 8 int_cmp = some true ↔
        ∃ x ∈ live ⟨some [7, 8, 9], 3⟩, int_cmp 8 x = 0) :=
  C11_index_of_contract ⟨some [7, 8, 9], 3⟩ 8 int_cmp (Or.inl (by decide))

/-- C12: for every vector, element and allocation outcome, `vector_prepend(v, e)`
and `vector_insert(v, 0, e)` are the same call: the same return value, the
same final contents, length and capacity, the same `realloc` request, and
undefined in the same cases, on an empty and on a non-empty vector alike. -/
theorem C12_prepend_is_insert_at_zero [DecidableEq α] (err : α) (r : Option (Nat → α))
    (v : vector α) (e : α) :
    vector_prepend err r v e = vector_insert err r v 0 e :=
  prepend_eq_insert err r v e

/-- C13: on a non-empty vector with a live sequence `x0, ..., x(n-1)` (the
`length` slots from `base` on are slots of its block), `vector_pop_first(v)` is
defined, returns `x0`, leaves the live sequence `x1, ..., x(n-1)` in the same
order, the length `n - 1` and the capacity unchanged, and for `n = 1` it is
`vector_pop(v)`. -/
theorem C13_pop_first_contract (err : α) (v : vector α)
    (hlive : (live v).length = vector_size v) (hpos : 0 < vector_size v) :
    ∃ w, vector_pop_first err v = some w ∧
      (live v)[0]? = some w.ret ∧
      live w.v = (live v).drop 1 ∧
      (∀ j, (live w.v)[j]? = (live v)[j + 1]?) ∧
      vector_size w.v + 1 = vector_size v ∧
      vector_capacity w.v = vector_capacity v ∧
      (vector_size v = 1 → vector_pop_first err v = vector_pop err v) := by
  have hinv : vector_size v ≤ vector_capacity v := live_inside v hlive
  obtain ⟨w, h1, h2, h3, h4, h5, _⟩ :=
    remove_ok err v 0 hinv (Int.le_refl 0) (by exact_mod_cast hpos)
  have h3' : live w.v = (live v).drop 1 := by simpa using h3
  refine ⟨w, by rw [pop_first_eq_remove]; exact h1, by simpa using h2, h3', fun j => ?_,
    h4, h5, fun hone => ?_⟩
  · rw [h3', List.getElem?_drop, Nat.add_comm]
  · have : ¬ ((vector_size v : Int) > 1) := by omega
    simp [vector_pop_first, this]

theorem C13_pop_first_contract_witness :
    ∃ w, vector_pop_first (0 : Nat) ⟨some [1, 2, 3, 0], 3⟩ = some w ∧
      (live ⟨some [1, 2, 3, 0], 3⟩)[0]? = some w.ret ∧
      live w.v = (live ⟨some [1, 2, 3, 0], 3⟩).drop 1 ∧
      (∀ j, (live w.v)[j]? = (live ⟨some [1, 2, 3, 0], 3⟩)[j + 1]?) ∧
      vector_size w.v + 1 = vector_size (⟨some [1, 2, 3, 0], 3⟩ : vector Nat) ∧
      vector_capacity w.v = vector_capacity (⟨some [1, 2, 3, 0], 3⟩ : vector Nat) ∧
      (vector_size (⟨some [1, 2, 3, 0], 3⟩ : vector Nat) = 1 →
        vector_pop_first (0 : Nat) ⟨some [1, 2, 3, 0], 3⟩ = vector_pop 0 ⟨some [1, 2, 3, 0], 3⟩) :=
  C13_pop_first_contract 0 ⟨some [1, 2, 3, 0], 3⟩ (by decide) (by decide)

/-- C14: for every vector, when the reallocation `vector_trim` performs (it
performs one unless the capacity already equals the length) succeeds, the
capacity afterwards equals the length exactly, the length is unchanged, and
every live element is unchanged at its index. -/
theorem C14_trim_precision (r : Option (Nat → α)) (v : vector α)
    (hr : vector_size v ≠ vector_capacity v → r ≠ none) :
    vector_capacity (vector_trim r v).v = vector_size (vector_trim r v).v ∧
    vector_size (vector_trim r v).v = vector_size v ∧
    (∀ (k : Nat) (x : α), (live v)[k]? = some x → (live (vector_trim r v).v)[k]? = some x) ∧
    (vector_size v ≤ vector_capacity v → live (vector_trim r v).v = live v) :=
  trim_ok r v hr

theorem C14_trim_precision_witness :
    vector_capacity (vector_trim (some fun _ => 0) (⟨some [1, 2, 3, 0], 3⟩ : vector Nat)).v =
      vector_size (vector_trim (some fun _ => 0) (⟨some [1, 2, 3, 0], 3⟩ : vector Nat)).v ∧
    vector_size (vector_trim (some fun _ => 0) (⟨some [1, 2, 3, 0], 3⟩ : vector Nat)).v =
      vector_size (⟨some [1, 2, 3, 0], 3⟩ : vector Nat) ∧
    (∀ (k : Nat) (x : Nat), (live (⟨some [1, 2, 3, 0], 3⟩ : vector Nat))[k]? = some x →
      (live (vector_trim (some fun _ => 0) (⟨some [1, 2, 3, 0], 3⟩ : vector Nat)).v)[k]?
        = some x) ∧
    (vector_size (⟨some [1, 2, 3, 0], 3⟩ : vector Nat) ≤
        vector_capacity (⟨some [1, 2, 3, 0], 3⟩ : vector Nat) →
      live (vector_trim (some fun _ => 0) (⟨some [1, 2, 3, 0], 3⟩ : vector Nat)).v =
        live ⟨some [1, 2, 3, 0], 3⟩) :=
  C14_trim_precision (some fun _ => 0) ⟨some [1, 2, 3, 0], 3⟩ (fun _ => by simp)

/-- C15: `vector_resize` below the length does not truncate.  On the full vector
`[1, 2]` a successful `resize(1)` leaves a block of one slot holding `1`, so
the capacity is 1, but `head` keeps its old offset: the length is still 2, not
1, and exceeds the capacity. -/
theorem C15_resize_keeps_length :
    vector_resize (some fun _ => 0) (⟨some [1, 2], 2⟩ : vector Nat) 1
      = ⟨true, ⟨some [1], 2⟩, [1]⟩ ∧
    vector_capacity (⟨some [1], 2⟩ : vector Nat) = 1 ∧
    vector_size (⟨some [1], 2⟩ : vector Nat) = 2 ∧
    vector_size (⟨some [1], 2⟩ : vector Nat) ≠ 1 := by
  refine ⟨?_, rfl, rfl, by decide⟩
  simp [vector_resize, realloc, vector_capacity]

/-- C16: on a vector with `length ≤ capacity`: for `0 ≤ i < length`,
`vector_set(v, i, e)` is defined, returns `e`, writes `e` at index `i`, leaves
every other slot, the length and the capacity unchanged and calls no
`realloc`; at `i = length` it is `vector_append(v, e)`: same return value, same
final state, same `realloc` request, under the same allocation outcome. -/
theorem C16_set_contract (err : α) (r : Option (Nat → α)) (v : vector α) (i : Int) (e : α)
    (hinv : vector_size v ≤ vector_capacity v) :
    (0 ≤ i → i < vector_size v →
      ∃ w, vector_set err r v i e = some w ∧ w.ret = e ∧
        load w.v i.toNat = some e ∧
        (∀ k, k ≠ i.toNat → load w.v k = load v k) ∧
        live w.v = (live v).set i.toNat e ∧
        vector_size w.v = vector_size v ∧
        vector_capacity w.v = vector_capacity v ∧
        w.reallocs = []) ∧
    (i = vector_size v → vector_set err r v i e = vector_append err r v e) := by
  refine ⟨fun h0 hi => set_ok err r v i e hinv h0 hi, fun heq => ?_⟩
  rw [heq]
  exact set_at_length err r v e

theorem C16_set_contract_witness :
    (∃ w, vector_set (0 : Nat) none ⟨some [1, 2, 3], 3⟩ 1 9 = some w ∧ w.ret = 9 ∧
        load w.v (1 : Int).toNat = some 9 ∧
        (∀ k, k ≠ (1 : Int).toNat → load w.v k = load ⟨some [1, 2, 3], 3⟩ k) ∧
        live w.v = (live ⟨some [1, 2, 3], 3⟩).set (1 : Int).toNat 9 ∧
        vector_size w.v = vector_size (⟨some [1, 2, 3], 3⟩ : vector Nat) ∧
        vector_capacity w.v = vector_capacity (⟨some [1, 2, 3], 3⟩ : vector Nat) ∧
        w.reallocs = []) ∧
    vector_set (0 : Nat) none ⟨some [1, 2, 3], 3⟩ 3 9
      = vector_append (0 : Nat) none ⟨some [1, 2, 3], 3⟩ 9 :=
  ⟨(C16_set_contract 0 none ⟨some [1, 2, 3], 3⟩ 1 9 (by decide)).1 (by decide) (by decide),
    (C16_set_contract 0 none ⟨some [1, 2, 3], 3⟩ 3 9 (by decide)).2 (by decide)⟩

/-- C17: on a vector with `length ≤ capacity`, each of append, set, insert,
prepend, pop, pop_first and remove, with any arguments and any allocation
outcome, is defined and leaves a capacity that is not smaller; the capacity
changes only by growing to `vector_newsize__` of the old one, which is strictly
larger (`vector_newsize__(c) > c` for every `c`); pop, pop_first and remove
leave it unchanged. -/
theorem C17_capacity_never_shrinks [DecidableEq α] (err : α) (r : Option (Nat → α))
    (v : vector α) (i : Int) (e : α) (hinv : vector_size v ≤ vector_capacity v) :
    (∃ w, vector_append err r v e = some w ∧
      vector_capacity v ≤ vector_capacity w.v ∧ capacity_kept_or_grown v w.v) ∧
    (∃ w, vector_set err r v i e = some w ∧
      vector_capacity v ≤ vector_capacity w.v ∧ capacity_kept_or_grown v w.v) ∧
    (∃ w, vector_insert err r v i e = some w ∧
      vector_capacity v ≤ vector_capacity w.v ∧ capacity_kept_or_grown v w.v) ∧
    (∃ w, vector_prepend err r v e = some w ∧
      vector_capacity v ≤ vector_capacity w.v ∧ capacity_kept_or_grown v w.v) ∧
    (∃ w, vector_pop err v = some w ∧ vector_capacity w.v = vector_capacity v) ∧
    (∃ w, vector_pop_first err v = some w ∧ vector_capacity w.v = vector_capacity v) ∧
    (∃ w, vector_remove err v i = some w ∧ vector_capacity w.v = vector_capacity v) ∧
    (∀ c, c < vector_newsize__ c) := by
  refine ⟨?_, ?_, ?_, ?_, ?_, ?_, ?_, vector_newsize_gt⟩
  · obtain ⟨w, h1, _, h3⟩ := append_total err r v e hinv
    exact ⟨w, h1, (kept_or_grown_of v w.v h3).2, (kept_or_grown_of v w.v h3).1⟩
  · obtain ⟨w, h1, _, h3⟩ := set_total err r v i e hinv
    exact ⟨w, h1, (kept_or_grown_of v w.v h3).2, (kept_or_grown_of v w.v h3).1⟩
  · obtain ⟨w, h1, _, h3⟩ := insert_total err r v i e hinv
    exact ⟨w, h1, (kept_or_grown_of v w.v h3).2, (kept_or_grown_of v w.v h3).1⟩
  · obtain ⟨w, h1, _, h3⟩ := insert_total err r v 0 e hinv
    exact ⟨w, by rw [prepend_eq_insert]; exact h1, (kept_or_grown_of v w.v h3).2,
      (kept_or_grown_of v w.v h3).1⟩
  · obtain ⟨w, h1, _, h3⟩ := pop_total err v hinv
    exact ⟨w, h1, h3⟩
  · obtain ⟨w, h1, _, h3⟩ := remove_total err v 0 hinv
    exact ⟨w, by rw [pop_first_eq_remove]; exact h1, h3⟩
  · obtain ⟨w, h1, _, h3⟩ := remove_total err v i hinv
    exact ⟨w, h1, h3⟩

theorem C17_capacity_never_shrinks_witness :
    (∃ w, vector_append (0 : Nat) none ⟨some [1, 2], 2⟩ 9 = some w ∧
      vector_capacity (⟨some [1, 2], 2⟩ : vector Nat) ≤ vector_capacity w.v ∧
      capacity_kept_or_grown ⟨some [1, 2], 2⟩ w.v) ∧
    (∃ w, vector_set (0 : Nat) none ⟨some [1, 2], 2⟩ 1 9 = some w ∧
      vector_capacity (⟨some [1, 2], 2⟩ : vector Nat) ≤ vector_capacity w.v ∧
      capacity_kept_or_grown ⟨some [1, 2], 2⟩ w.v) ∧
    (∃ w, vector_insert (0 : Nat) none ⟨some [1, 2], 2⟩ 1 9 = some w ∧
      vector_capacity (⟨some [1, 2], 2⟩ : vector Nat) ≤ vector_capacity w.v ∧
      capacity_kept_or_grown ⟨some [1, 2], 2⟩ w.v) ∧
    (∃ w, vector_prepend (0 : Nat) none ⟨some [1, 2], 2⟩ 9 = some w ∧
      vector_capacity (⟨some [1, 2], 2⟩ : vector Nat) ≤ vector_capacity w.v ∧
      capacity_kept_or_grown ⟨some [1, 2], 2⟩ w.v) ∧
    (∃ w, vector_pop (0 : Nat) ⟨some [1, 2], 2⟩ = some w ∧
      vector_capacity w.v = vector_capacity (⟨some [1, 2], 2⟩ : vector Nat)) ∧
    (∃ w, vector_pop_first (0 : Nat) ⟨some [1, 2], 2⟩ = some w ∧
      vector_capacity w.v = vector_capacity (⟨some [1, 2], 2⟩ : vector Nat)) ∧
    (∃ w, vector_remove (0 : Nat) ⟨some [1, 2], 2⟩ 1 = some w ∧
      vector_capacity w.v = vector_capacity (⟨some [1, 2], 2⟩ : vector Nat)) ∧
    (∀ c, c < vector_newsize__ c) :=
  C17_capacity_never_shrinks 0 none ⟨some [1, 2], 2⟩ 1 9 (by decide)

/-- C18: `vector_insert` and `vector_prepend` do not always return the added
element.  On the vector `[1, 0]` with a spare slot and `VECTOR_ERROR` read as
`0`, `insert(0, 9)` and `prepend(9)` need no allocation and leave the live
sequence `[9, 1, 0]`, yet return `VECTOR_ERROR`: the macros take the return
value of the inner append of the saved last element, here `0`, for a failure
report. -/
theorem C18_insert_returns_error_on_success :
    vector_insert (0 : Nat) none ⟨some [1, 0, 5], 2⟩ 0 9
      = some ⟨0, ⟨some [9, 1, 0], 3⟩, []⟩ ∧
    vector_prepend (0 : Nat) none ⟨some [1, 0, 5], 2⟩ 9
      = some ⟨0, ⟨some [9, 1, 0], 3⟩, []⟩ ∧
    live (⟨some [9, 1, 0], 3⟩ : vector Nat) = [9, 1, 0] ∧
    live (⟨some [1, 0, 5], 2⟩ : vector Nat) = [1, 0] := by
  refine ⟨by decide, by decide, by decide, by decide⟩

/-- C19: on a vector with `length ≤ capacity`, each of append, set, insert,
prepend, pop, pop_first, remove, trim and clear, with any arguments and
whether the allocation succeeds or fails, is defined and leaves
`length ≤ capacity`. -/
theorem C19_invariant_preserved [DecidableEq α] (err : α) (r : Option (Nat → α))
    (v : vector α) (i : Int) (e : α) (hinv : vector_size v ≤ vector_capacity v) :
    (∃ w, vector_append err r v e = some w ∧ vector_size w.v ≤ vector_capacity w.v) ∧
    (∃ w, vector_set err r v i e = some w ∧ vector_size w.v ≤ vector_capacity w.v) ∧
    (∃ w, vector_insert err r v i e = some w ∧ vector_size w.v ≤ vector_capacity w.v) ∧
    (∃ w, vector_prepend err r v e = some w ∧ vector_size w.v ≤ vector_capacity w.v) ∧
    (∃ w, vector_pop err v = some w ∧ vector_size w.v ≤ vector_capacity w.v) ∧
    (∃ w, vector_pop_first err v = some w ∧ vector_size w.v ≤ vector_capacity w.v) ∧
    (∃ w, vector_remove err v i = some w ∧ vector_size w.v ≤ vector_capacity w.v) ∧
    vector_size (vector_trim r v).v ≤ vector_capacity (vector_trim r v).v ∧
    vector_size (vector_clear v).v ≤ vector_capacity (vector_clear v).v := by
  refine ⟨?_, ?_, ?_, ?_, ?_, ?_, ?_, trim_total r v hinv, Nat.le_refl 0⟩
  · obtain ⟨w, h1, h2, _⟩ := append_total err r v e hinv
    exact ⟨w, h1, h2⟩
  · obtain ⟨w, h1, h2, _⟩ := set_total err r v i e hinv
    exact ⟨w, h1, h2⟩
  · obtain ⟨w, h1, h2, _⟩ := insert_total err r v i e hinv
    exact ⟨w, h1, h2⟩
  · obtain ⟨w, h1, h2, _⟩ := insert_total err r v 0 e hinv
    exact ⟨w, by rw [prepend_eq_insert]; exact h1, h2⟩
  · obtain ⟨w, h1, h2, _⟩ := pop_total err v hinv
    exact ⟨w, h1, h2⟩
  · obtain ⟨w, h1, h2, _⟩ := remove_total err v 0 hinv
    exact ⟨w, by rw [pop_first_eq_remove]; exact h1, h2⟩
  · obtain ⟨w, h1, h2, _⟩ := remove_total err v i hinv
    exact ⟨w, h1, h2⟩

theorem C19_invariant_preserved_witness :
    (∃ w, vector_append (0 : Nat) none ⟨some [1, 2], 2⟩ 9 = some w ∧
      vector_size w.v ≤ vector_capacity w.v) ∧
    (∃ w, vector_set (0 : Nat) none ⟨some [1, 2], 2⟩ 2 9 = some w ∧
      vector_size w.v ≤ vector_capacity w.v) ∧
    (∃ w, vector_insert (0 : Nat) none ⟨some [1, 2], 2⟩ 2 9 = some w ∧
      vector_size w.v ≤ vector_capacity w.v) ∧
    (∃ w, vector_prepend (0 : Nat) none ⟨some [1, 2], 2⟩ 9 = some w ∧
      vector_size w.v ≤ vector_capacity w.v) ∧
    (∃ w, vector_pop (0 : Nat) ⟨some [1, 2], 2⟩ = some w ∧
      vector_size w.v ≤ vector_capacity w.v) ∧
    (∃ w, vector_pop_first (0 : Nat) ⟨some [1, 2], 2⟩ = some w ∧
      vector_size w.v ≤ vector_capacity w.v) ∧
    (∃ w, vector_remove (0 : Nat) ⟨some [1, 2], 2⟩ 2 = some w ∧
      vector_size w.v ≤ vector_capacity w.v) ∧
    vector_size (vector_trim none (⟨some [1, 2], 2⟩ : vector Nat)).v ≤
      vector_capacity (vector_trim none (⟨some [1, 2], 2⟩ : vector Nat)).v ∧
    vector_size (vector_clear (⟨some [1, 2], 2⟩ : vector Nat)).v ≤
      vector_capacity (vector_clear (⟨some [1, 2], 2⟩ : vector Nat)).v :=
  C19_invariant_preserved 0 none ⟨some [1, 2], 2⟩ 2 9 (by decide)

/-- C20: a trim or resize that has nothing to do does not always report
success.  On the freshly initialised empty vector, whose capacity equals its
length, `vector_trim(v)` and `vector_resize(v, 0)` call no `realloc` and leave
the vector unchanged, but their value is `NULL`: the macros test the unchanged
`base`, which is `NULL`, as if it were the result of a `realloc`.  The same
calls on a vector with a block return the vector. -/
theorem C20_noop_trim_on_null_base_returns_null (r : Option (Nat → α)) :
    vector_capacity (VECTOR_EMPTY_INITIALIZER : vector α)
      = vector_size (VECTOR_EMPTY_INITIALIZER : vector α) ∧
    vector_trim r (VECTOR_EMPTY_INITIALIZER : vector α)
      = ⟨false, VECTOR_EMPTY_INITIALIZER, []⟩ ∧
    vector_resize r (VECTOR_EMPTY_INITIALIZER : vector α)
        (vector_capacity (VECTOR_EMPTY_INITIALIZER : vector α))
      = ⟨false, VECTOR_EMPTY_INITIALIZER, []⟩ ∧
    (∀ (m : List α), vector_trim r ⟨some m, m.length⟩ = ⟨true, ⟨some m, m.length⟩, []⟩ ∧
      vector_resize r ⟨some m, m.length⟩ m.length = ⟨true, ⟨some m, m.length⟩, []⟩) := by
  refine ⟨rfl, ?_, ?_, fun m => ⟨?_, ?_⟩⟩
  · simp [vector_trim, vector_resize, vector_size, vector_capacity, VECTOR_EMPTY_INITIALIZER]
  · simp [vector_resize, vector_capacity, VECTOR_EMPTY_INITIALIZER]
  · simp [vector_trim, vector_resize, vector_size, vector_capacity]
  · simp [vector_resize, vector_capacity]

end VectorH
